import Mathlib

/-!
Verification of the frame codec and read/write state machine of the
nikandfor/websocket repository (RFC 6455 endpoint library), against its
natural-language specification.

The Go source is shallowly embedded:
* bytes are `Nat` (Go guarantees every stored value is < 256; arithmetic on
  header bytes is written exactly as the source computes it),
* Go `int` is modelled as `Int` (the source targets 64-bit platforms, where
  `int` is a 64-bit two's-complement integer; the one place where wrap-around
  matters, `HeaderBits.ParseLen`, performs the conversion explicitly),
* byte slices are `List Nat`; a Go slice expression `b[a:e]` is the partial
  operation `gslice` (out-of-range slicing panics in Go; a panic is modelled
  as the `none` outcome of the enclosing operation),
* the transport (`net.Conn`) is a parameter: any type `τ` together with
  read/write operations (`Tr τ`).  Two instances are used: `FakeConn`, the
  exact test double of the repository fuzz harness, and `ScriptT`, an oracle
  transport that replays an arbitrary response script,
* loops (`readFrameHeader`, `appendFrame`, `Read` driving) take fuel;
  `none` is the outcome of a call that does not return normally
  (infinite loop or runtime panic).
-/

namespace WS

/-- Errors returned by the Go code.  `errors.Is(err, io.EOF)` holds exactly
for `eof` (`Status` and `StatusText` do not unwrap to `io.EOF`). -/
inductive GErr where
  | eof
  | invalidFrame
  | closeData (b : Nat)
  | status (s : Nat)
  | statusText (s : Nat) (txt : List Nat)
  | other
  deriving DecidableEq, Repr

/-- Go `errors.Is(err, io.EOF)` on an error value (`none` = Go `nil`). -/
def isEOF : Option GErr → Bool
  | some .eof => true
  | _ => false

/-- Go slice expression `b[a:e]`: defined when `0 ≤ a ≤ e ≤ len b`,
otherwise Go panics (`none`). -/
def gslice (b : List Nat) (a e : Int) : Option (List Nat) :=
  if 0 ≤ a ∧ a ≤ e ∧ e ≤ (b.length : Int) then
    some ((b.take e.toNat).drop a.toNat)
  else
    none

/-- Total version of the slice `b[a:e]`, used where the enclosing code has
already established that the bounds are valid (it agrees with `gslice`
there) and in invariant statements. -/
def sl (b : List Nat) (a e : Int) : List Nat :=
  (b.take e.toNat).drop a.toNat

/-- Go index read `b[j]` (panic when out of range). -/
def gidx (b : List Nat) (j : Int) : Option Nat :=
  if 0 ≤ j ∧ j < (b.length : Int) then
    some (b.getD j.toNat 0)
  else
    none

/-- Go index write `b[j] = v` (panic when out of range). -/
def gset (b : List Nat) (j : Int) (v : Nat) : Option (List Nat) :=
  if 0 ≤ j ∧ j < (b.length : Int) then
    some (b.set j.toNat v)
  else
    none

/-- Go `copy(p[n:], src)` where it is known that `src` fits: overwrite
`p` at positions `[n, n + src.length)`. -/
def copyAt (p : List Nat) (n : Nat) (src : List Nat) : List Nat :=
  p.take n ++ src ++ p.drop (n + src.length)

/-- `maskBuf(p, key, off)` from websocket.go: the loop
`for i := range p { p[i] ^= key[(off+i)&3] }`, unrolled one element at a
time (byte `j` of the result is `p[j] ^^^ key[(off+j)&3]`).  Go's `&3` on a
(possibly negative) two's-complement int equals the Euclidean remainder
mod 4. -/
def maskBuf (p : List Nat) (key : List Nat) (off : Int) : List Nat :=
  match p with
  | [] => []
  | b :: rest => (b ^^^ key.getD (off % 4).toNat 0) :: maskBuf rest key (off + 1)

end WS

namespace WS

/-- Constants from websocket.go. -/
def finbit : Nat := 0x80

def opcodeMask : Nat := 0xf

/-- Source constant `masked` (second-byte MASK bit). -/
def maskedBit : Nat := 0x80

def len16 : Nat := 128 - 2

def len64 : Nat := 128 - 1

def maxLen7 : Nat := 128 - 3

def maxLen16 : Nat := 2 ^ 16 - 1

def maxLen64 : Nat := 2 ^ 62 - 1

def FrameContinue : Nat := 0

def FrameText : Nat := 1

def FrameBinary : Nat := 2

def FrameClose : Nat := 8

def FramePing : Nat := 9

def FramePong : Nat := 10

/-- Close status 1000 (`StatusOK`). -/
def StatusOK : Nat := 1000

/-- The two base header octets (Go `HeaderBits [2]byte`). -/
structure HeaderBits where
  b0 : Nat
  b1 : Nat
  deriving DecidableEq, Repr

def HeaderBits.Fin' (f : HeaderBits) : Bool := f.b0 &&& 0x80 ≠ 0

def HeaderBits.Opcode' (f : HeaderBits) : Nat := f.b0 &&& 0xf

def HeaderBits.Masked (f : HeaderBits) : Bool := f.b1 &&& 0x80 ≠ 0

def HeaderBits.len7 (f : HeaderBits) : Nat := f.b1 &&& 0x7f

/-- Go `binary.BigEndian.Uint16(b)` on the first two bytes. -/
def be16get (x y : Nat) : Nat := x * 256 + y

/-- Go `binary.BigEndian.Uint64` over eight bytes. -/
def be64get (b : List Nat) : Nat :=
  b.getD 0 0 * 2 ^ 56 + b.getD 1 0 * 2 ^ 48 + b.getD 2 0 * 2 ^ 40 +
    b.getD 3 0 * 2 ^ 32 + b.getD 4 0 * 2 ^ 24 + b.getD 5 0 * 2 ^ 16 +
    b.getD 6 0 * 2 ^ 8 + b.getD 7 0

/-- Go conversion `int(x)` of a `uint64` on a 64-bit platform:
two's-complement reinterpretation. -/
def toInt64 (x : Nat) : Int :=
  if x < 2 ^ 63 then (x : Int) else (x : Int) - 2 ^ 64

/-- Go conversion `uint64(l)` of an `int` on a 64-bit platform. -/
def toUint64 (l : Int) : Nat := (l % 2 ^ 64).toNat

/-- `HeaderBits.ParseLen(b, st)` from websocket.go.  Returns `(l, i)`;
`i < 0` signals an incomplete buffer.  The `none` outcome models the two
panics in the source (`panic("too big frame")` and the impossible default
branch) as well as an out-of-range slice.  Note the bounds are checked
against the PHYSICAL buffer length (the source passes `c.rbuf`, not
`c.rbuf[:c.end]`, to `ParseLen`). -/
def HeaderBits.ParseLen (f : HeaderBits) (b : List Nat) (st : Int) :
    Option (Int × Int) :=
  let l : Nat := f.len7
  if l ≤ 125 then
    some ((l : Int), st)
  else if l = 126 then
    if st + 2 > (b.length : Int) then
      some ((l : Int), -1)
    else if st < 0 then
      none
    else
      some ((be16get (b.getD st.toNat 0) (b.getD (st.toNat + 1) 0) : Int), st + 2)
  else if l = 127 then
    if st + 8 > (b.length : Int) then
      some ((l : Int), -1)
    else if st < 0 then
      none
    else
      let x : Nat := be64get ((b.drop st.toNat).take 8)
      let li : Int := toInt64 x
      if toUint64 li ≠ x then
        none
      else
        some (li, st + 8)
  else
    none

/-- `HeaderBits.ReadMaskingKey(b, st, key)` from websocket.go: copy 4 bytes
of `b` at `st` into the key; `-1` when fewer than 4 bytes remain. -/
def HeaderBits.ReadMaskingKey (b : List Nat) (st : Int) :
    Option (Int × Option (List Nat)) :=
  if st + 4 > (b.length : Int) then
    some (-1, none)
  else if st < 0 then
    none
  else
    some (st + 4, some ((b.drop st.toNat).take 4))

end WS

namespace WS

theorem maskBuf_length (p key : List Nat) (off : Int) :
    (maskBuf p key off).length = p.length := by
  induction p generalizing off with
  | nil => rfl
  | cons b rest ih => simp [maskBuf, ih]

theorem maskBuf_getD (p key : List Nat) (off : Int) (j : Nat) (hj : j < p.length) :
    (maskBuf p key off).getD j 0 =
      p.getD j 0 ^^^ key.getD ((off + (j : Int)) % 4).toNat 0 := by
  induction p generalizing off j with
  | nil => simp at hj
  | cons b rest ih =>
    cases j with
    | zero => simp [maskBuf]
    | succ k =>
      simp only [maskBuf, List.getD_cons_succ]
      rw [ih (off + 1) k (by simpa using hj)]
      congr 3
      push_cast
      omega

theorem maskBuf_maskBuf (p key : List Nat) (off : Int) :
    maskBuf (maskBuf p key off) key off = p := by
  induction p generalizing off with
  | nil => rfl
  | cons b rest ih => simp [maskBuf, ih, Nat.xor_assoc]

theorem maskBuf_zero_key (p : List Nat) (off : Int) :
    maskBuf p [0, 0, 0, 0] off = p := by
  induction p generalizing off with
  | nil => rfl
  | cons b rest ih =>
    have h0 : ([0, 0, 0, 0] : List Nat).getD (off % 4).toNat 0 = 0 := by
      rcases h : ((off % 4).toNat) with _ | _ | _ | _ | n <;> simp [List.getD]
    simp only [maskBuf, ih, h0, Nat.xor_zero]

theorem maskBuf_append (a b key : List Nat) (off : Int) :
    maskBuf (a ++ b) key off =
      maskBuf a key off ++ maskBuf b key (off + a.length) := by
  induction a generalizing off with
  | nil => simp [maskBuf]
  | cons x rest ih =>
    simp only [List.cons_append, maskBuf, List.length_cons]
    rw [show rest.append b = rest ++ b from rfl, ih]
    congr 3
    push_cast
    ring

/-- C7: the masking primitive XORs byte `j` of the buffer with
`key[(offset + j) mod 4]`, and applying it twice with the same key and
offset restores the original buffer.  (Stated for every `Int` offset, which
covers every non-negative offset of the claim; Go's `&3` on an `int` is the
Euclidean remainder mod 4.) -/
theorem c7_mask_pointwise_and_involution (p key : List Nat) (off : Int)
    (j : Nat) (hj : j < p.length) :
    (maskBuf p key off).getD j 0 =
        p.getD j 0 ^^^ key.getD ((off + (j : Int)) % 4).toNat 0 ∧
      maskBuf (maskBuf p key off) key off = p :=
  ⟨maskBuf_getD p key off j hj, maskBuf_maskBuf p key off⟩

/-- C7 witness: the theorem applied at a concrete buffer, key, offset and
index. -/
theorem c7_mask_pointwise_and_involution_witness :
    (maskBuf [7, 250, 3] [1, 2, 3, 4] 5).getD 1 0 =
        [7, 250, 3].getD 1 0 ^^^ [1, 2, 3, 4].getD (((5 : Int) + 1) % 4).toNat 0 ∧
      maskBuf (maskBuf [7, 250, 3] [1, 2, 3, 4] 5) [1, 2, 3, 4] 5 = [7, 250, 3] :=
  c7_mask_pointwise_and_involution [7, 250, 3] [1, 2, 3, 4] 5 1 (by decide)

/-- On a 64-bit platform the conversion chain `uint64(int(x))` is the
identity, so the `uint64(l) != x` guard in `ParseLen` (the
`panic("too big frame")`) can never fire. -/
theorem toUint64_toInt64 (x : Nat) (hx : x < 2 ^ 64) : toUint64 (toInt64 x) = x := by
  unfold toUint64 toInt64
  split
  · rw [Int.emod_eq_of_lt (by positivity) (by exact_mod_cast by omega)]
    exact Int.toNat_natCast x
  · have h1 : ((x : Int) - 2 ^ 64) % 2 ^ 64 = (x : Int) % 2 ^ 64 := by
      omega
    rw [h1, Int.emod_eq_of_lt (by positivity) (by exact_mod_cast hx)]
    exact Int.toNat_natCast x

theorem getD_concat (pre mid rest : List Nat) (k : Nat) (hk : k < mid.length) :
    (pre ++ (mid ++ rest)).getD (pre.length + k) 0 = mid.getD k 0 := by
  rw [List.getD_eq_getElem?_getD, List.getD_eq_getElem?_getD,
    List.getElem?_append_right (by omega), Nat.add_sub_cancel_left,
    List.getElem?_append, if_pos hk]

theorem ParseLen_len7 (f : HeaderBits) (b : List Nat) (st : Int)
    (h : f.len7 ≤ 125) : f.ParseLen b st = some ((f.len7 : Int), st) := by
  unfold HeaderBits.ParseLen
  simp [h]

/-- C4 (supporting theorem for the code bug): a received 64-bit length
field holding 2^62 — which exceeds the protocol limit 2^62 − 1 — is parsed
successfully: `ParseLen` returns the length and the advanced index instead
of failing.  (On a 64-bit platform `uint64(int(x)) == x` for every `x`, so
the `panic("too big frame")` guard in the source is dead code; see
`toUint64_toInt64`.) -/
theorem c4_oversize_length_accepted :
    (HeaderBits.mk 0x82 0x7f).ParseLen [0x40, 0, 0, 0, 0, 0, 0, 0] 0 =
        some ((2 ^ 62 : Int), 8) ∧ 2 ^ 62 > maxLen64 := by
  constructor
  · decide
  · decide

end WS

namespace WS

/-- `csel` from the source. -/
def csel {α : Type} (c : Bool) (x y : α) : α := if c then x else y

/-- The two bytes appended by `binary.BigEndian.AppendUint16(b, uint16(x))`. -/
def be16app (x : Nat) : List Nat := [x / 2 ^ 8 % 256, x % 256]

/-- The eight bytes appended by `binary.BigEndian.AppendUint64(b, uint64(x))`. -/
def be64app (x : Nat) : List Nat :=
  [x / 2 ^ 56 % 256, x / 2 ^ 48 % 256, x / 2 ^ 40 % 256, x / 2 ^ 32 % 256,
    x / 2 ^ 24 % 256, x / 2 ^ 16 % 256, x / 2 ^ 8 % 256, x % 256]

/-- A transport (the `net.Conn` beneath the framing layer): a read that
returns at most the requested number of bytes together with an error, and a
write returning a count and an error. -/
structure Tr (τ : Type) where
  rd : τ → Nat → List Nat × Option GErr × τ
  wr : τ → List Nat → Int × Option GErr × τ
  rd_le : ∀ t n, (rd t n).1.length ≤ n

/-- Connection state, conn_read.go `Conn` (the canonical version with the
`start` cursor).  Go's `end` field is named `en` here (`end` is a Lean
keyword); the mutexes are not modelled (all executions considered are
single-threaded). -/
structure Conn (τ : Type) where
  tr : τ
  client : Nat
  writerClosed : Bool
  readerClosed : Bool
  wbuf : List Nat
  rbuf : List Nat
  st : Int
  i : Int
  en : Int
  header : HeaderBits
  key : List Nat
  start : Int
  more : Int
  deriving DecidableEq

/-- `Conn.writeFrame` (unnamed/part_001).  `rkey` supplies the 4 random
bytes that `rand.Read` generates for a client frame (the embedding's
randomness oracle; it is meaningful only when its length is 4, the size of
the array the source fills).  The last component of the result is the
caller's payload slice as the call leaves it: the source contains no
assignment to `p` or its elements — the header, key and masked payload are
assembled in `b`, the connection's private write buffer — so the slice is
returned unchanged. -/
def Conn.writeFrame {τ : Type} (T : Tr τ) (c : Conn τ) (p : List Nat)
    (op : Nat) (final : Bool) (rkey : List Nat) :
    Option (Int × Option GErr × Conn τ × List Nat) :=
  let b := c.wbuf
  let finb : Nat := csel final finbit 0
  let l7? : Option Nat :=
    if p.length ≤ maxLen7 then some p.length
    else if p.length ≤ maxLen16 then some len16
    else if p.length ≤ maxLen64 then some len64
    else none
  match l7? with
  | none => none
  | some l7 =>
    let b := b ++ [op &&& opcodeMask ||| finb, c.client * maskedBit ||| l7]
    let b := if l7 = len16 then b ++ be16app p.length
      else if l7 = len64 then b ++ be64app p.length else b
    let b := if c.client ≠ 0 then b ++ rkey else b
    let payload := b.length
    let b := b ++ p
    let b := if c.client ≠ 0 then
        b.take payload ++
          maskBuf (b.drop payload) ((b.take payload).drop (payload - 4)) 0
      else b
    let c := { c with wbuf := [] }
    match T.wr c.tr b with
    | (n, e, t) =>
      let c := { c with tr := t }
      let n := n - payload
      match e with
      | some err => some (if n < 0 then 0 else n, some err, c, p)
      | none => some (n, none, c, p)

/-- `Conn.Write`: `writeFrame(p, FrameBinary, true)`. -/
def Conn.Write' {τ : Type} (T : Tr τ) (c : Conn τ) (p : List Nat)
    (rkey : List Nat) : Option (Int × Option GErr × Conn τ × List Nat) :=
  c.writeFrame T p FrameBinary true rkey

/-- The 7-bit length field the encoder selects for payload length `l`. -/
def l7val (l : Nat) : Nat :=
  if l ≤ maxLen7 then l else if l ≤ maxLen16 then len16 else len64

/-- The extended-length bytes the encoder emits for payload length `l`. -/
def lenBytes (l : Nat) : List Nat :=
  if l ≤ maxLen7 then [] else if l ≤ maxLen16 then be16app l else be64app l

/-- The full wire image of one frame as composed by `writeFrame`. -/
def frameBytes (client op : Nat) (final : Bool) (rkey p : List Nat) :
    List Nat :=
  [op &&& opcodeMask ||| csel final finbit 0,
      client * maskedBit ||| l7val p.length] ++
    lenBytes p.length ++ (if client ≠ 0 then rkey else []) ++
    (if client ≠ 0 then maskBuf p rkey 0 else p)

/-- Header size (bytes preceding the payload) of the frame image. -/
def hdrSize (client : Nat) (l : Nat) : Nat :=
  2 + (lenBytes l).length + (if client ≠ 0 then 4 else 0)

end WS

namespace WS

theorem writeFrame_eq {τ : Type} (T : Tr τ) (c : Conn τ) (p : List Nat)
    (op : Nat) (final : Bool) (rkey : List Nat) (hw : c.wbuf = [])
    (hk : rkey.length = 4) (hp : p.length ≤ maxLen64) :
    c.writeFrame T p op final rkey =
      match T.wr c.tr (frameBytes c.client op final rkey p) with
      | (n, some err, t) =>
        some (if n - (hdrSize c.client p.length : Int) < 0 then 0
            else n - (hdrSize c.client p.length : Int), some err,
          { c with wbuf := [], tr := t }, p)
      | (n, none, t) =>
        some (n - (hdrSize c.client p.length : Int), none,
          { c with wbuf := [], tr := t }, p) := by
  have hkey : ∀ B1 : List Nat,
      (B1 ++ rkey).drop ((B1 ++ rkey).length - 4) = rkey := by
    intro B1
    apply List.drop_left'
    simp [hk]
  have hBde : ∀ B pp : List Nat, (B ++ pp).take B.length = B ∧
      (B ++ pp).drop B.length = pp :=
    fun B pp => ⟨List.take_left B pp, List.drop_left B pp⟩
  unfold Conn.writeFrame frameBytes l7val hdrSize
  rw [hw]
  by_cases h7 : p.length ≤ maxLen7
  · have h16 : p.length ≠ len16 := by simp only [maxLen7, len16] at *; omega
    have h64 : p.length ≠ len64 := by simp only [maxLen7, len64] at *; omega
    by_cases hc : c.client ≠ 0
    · simp only [if_pos h7, if_neg h16, if_neg h64, if_pos hc, List.nil_append,
        lenBytes, (hBde _ _).1, (hBde _ _).2, hkey]
      rcases hwr : T.wr c.tr
          ([op &&& opcodeMask ||| csel final finbit 0,
            c.client * maskedBit ||| p.length] ++ rkey ++ maskBuf p rkey 0)
        with ⟨n, e, t⟩
      simp only [List.append_assoc, List.cons_append, List.nil_append] at hwr ⊢
      simp only [hwr]
      rcases e with _ | err <;> simp [hk, h7]
    · simp only [if_pos h7, if_neg h16, if_neg h64, if_neg hc, List.nil_append,
        lenBytes, (hBde _ _).1, (hBde _ _).2, hkey]
      rcases hwr : T.wr c.tr
          ([op &&& opcodeMask ||| csel final finbit 0,
            c.client * maskedBit ||| p.length] ++ p)
        with ⟨n, e, t⟩
      simp only [List.append_assoc, List.cons_append, List.nil_append] at hwr ⊢
      simp only [hwr]
      rcases e with _ | err <;> simp [hk, h7]
  · by_cases h16 : p.length ≤ maxLen16
    · have hne : (len16 : Nat) = len16 := rfl
      have h64 : (len16 : Nat) ≠ len64 := by decide
      by_cases hc : c.client ≠ 0
      · simp only [if_neg h7, if_pos h16, if_pos hne, if_pos hc, if_true, if_false, List.nil_append,
          lenBytes, (hBde _ _).1, (hBde _ _).2, hkey]
        rcases hwr : T.wr c.tr
            ([op &&& opcodeMask ||| csel final finbit 0,
              c.client * maskedBit ||| len16] ++ be16app p.length ++ rkey ++
              maskBuf p rkey 0)
          with ⟨n, e, t⟩
        simp only [List.append_assoc, List.cons_append, List.nil_append] at hwr ⊢
        simp only [hwr]
        rcases e with _ | err <;> simp [hk, h7, h16, be16app]
      · simp only [if_neg h7, if_pos h16, if_pos hne, if_neg hc, if_true, if_false, List.nil_append,
          lenBytes, (hBde _ _).1, (hBde _ _).2, hkey]
        rcases hwr : T.wr c.tr
            ([op &&& opcodeMask ||| csel final finbit 0,
              c.client * maskedBit ||| len16] ++ be16app p.length ++ p)
          with ⟨n, e, t⟩
        simp only [List.append_assoc, List.cons_append, List.nil_append] at hwr ⊢
        simp only [hwr]
        rcases e with _ | err <;> simp [hk, h7, h16, be16app]
    · have hne : (len64 : Nat) ≠ len16 := by decide
      by_cases hc : c.client ≠ 0
      · simp only [if_neg h7, if_neg h16, if_pos hp, if_neg hne, if_pos rfl, if_true, if_false,
          if_pos hc, List.nil_append, lenBytes,
          (hBde _ _).1, (hBde _ _).2, hkey]
        rcases hwr : T.wr c.tr
            ([op &&& opcodeMask ||| csel final finbit 0,
              c.client * maskedBit ||| len64] ++ be64app p.length ++ rkey ++
              maskBuf p rkey 0)
          with ⟨n, e, t⟩
        simp only [List.append_assoc, List.cons_append, List.nil_append] at hwr ⊢
        simp only [hwr]
        rcases e with _ | err <;> simp [hk, h7, h16, be64app]
      · simp only [if_neg h7, if_neg h16, if_pos hp, if_neg hne, if_pos rfl, if_true, if_false,
          if_neg hc, List.nil_append, lenBytes,
          (hBde _ _).1, (hBde _ _).2, hkey]
        rcases hwr : T.wr c.tr
            ([op &&& opcodeMask ||| csel final finbit 0,
              c.client * maskedBit ||| len64] ++ be64app p.length ++ p)
          with ⟨n, e, t⟩
        simp only [List.append_assoc, List.cons_append, List.nil_append] at hwr ⊢
        simp only [hwr]
        rcases e with _ | err <;> simp [hk, h7, h16, be64app]

end WS

namespace WS

/-- The `FakeConn` test double from fuzz_test.go: a growable byte pipe.
`Read` copies as much of `b[r:]` as fits and reports `io.EOF` exactly when
the cursor reaches the end; `Write` appends. -/
structure FakeConn where
  b : List Nat
  r : Nat
  deriving DecidableEq

def FakeConn.rd (f : FakeConn) (space : Nat) : List Nat × Option GErr × FakeConn :=
  let chunk := (f.b.drop f.r).take space
  let r2 := f.r + chunk.length
  (chunk, if r2 = f.b.length then some .eof else none, ⟨f.b, r2⟩)

def FakeConn.wr (f : FakeConn) (p : List Nat) : Int × Option GErr × FakeConn :=
  ((p.length : Int), none, ⟨f.b ++ p, f.r⟩)

def FakeTr : Tr FakeConn where
  rd := FakeConn.rd
  wr := FakeConn.wr
  rd_le := by
    intro t n
    simp only [FakeConn.rd, List.length_take]
    omega

theorem ParseLen_ext16 (f : HeaderBits) (pre rest : List Nat) (L : Nat)
    (h7 : f.len7 = 126) (hL : L < 2 ^ 16) :
    f.ParseLen (pre ++ (be16app L ++ rest)) (pre.length : Int) =
      some ((L : Int), (pre.length : Int) + 2) := by
  unfold HeaderBits.ParseLen
  simp only [h7]
  have hlen : ((pre ++ (be16app L ++ rest)).length : Int) =
      (pre.length : Int) + 2 + rest.length := by
    simp [be16app]
    ring
  rw [if_neg (by omega), if_pos trivial, if_neg (by rw [hlen]; omega),
    if_neg (by omega)]
  have h0 : (pre ++ (be16app L ++ rest)).getD ((pre.length : Int)).toNat 0 =
      L / 2 ^ 8 % 256 := by
    rw [Int.toNat_natCast]
    have := getD_concat pre (be16app L) rest 0 (by simp [be16app])
    simpa [be16app] using this
  have h1 : (pre ++ (be16app L ++ rest)).getD (((pre.length : Int)).toNat + 1) 0 =
      L % 256 := by
    rw [Int.toNat_natCast]
    have := getD_concat pre (be16app L) rest 1 (by simp [be16app])
    simpa [be16app] using this
  rw [h0, h1]
  have hv : be16get (L / 2 ^ 8 % 256) (L % 256) = L := by
    unfold be16get
    omega
  rw [hv]

end WS

namespace WS

theorem toInt64_small (L : Nat) (hL : L < 2 ^ 63) : toInt64 L = (L : Int) := by
  unfold toInt64
  rw [if_pos hL]

theorem ParseLen_ext64 (f : HeaderBits) (pre rest : List Nat) (L : Nat)
    (h7 : f.len7 = 127) (hL : L < 2 ^ 63) :
    f.ParseLen (pre ++ (be64app L ++ rest)) (pre.length : Int) =
      some ((L : Int), (pre.length : Int) + 8) := by
  unfold HeaderBits.ParseLen
  simp only [h7]
  have hlen : ((pre ++ (be64app L ++ rest)).length : Int) =
      (pre.length : Int) + 8 + rest.length := by
    simp [be64app]
    ring
  rw [if_neg (by omega), if_neg (by decide), if_pos trivial,
    if_neg (by rw [hlen]; omega), if_neg (by omega)]
  have hx : (List.take 8 (List.drop ((pre.length : Int)).toNat
      (pre ++ (be64app L ++ rest)))) = be64app L := by
    rw [Int.toNat_natCast, List.drop_left]
    exact List.take_left' (by simp [be64app])
  rw [hx]
  have hg : be64get (be64app L) = L := by
    unfold be64get be64app
    simp only [List.getD_cons_zero, List.getD_cons_succ]
    omega
  have hgu : toUint64 (toInt64 L) = L := toUint64_toInt64 L (by omega)
  rw [hg, if_neg (by simp [hgu]), toInt64_small L hL]

end WS

namespace WS

/-- Concrete server-side connection over a fresh `FakeConn`, used by
witnesses. -/
def wConn : Conn FakeConn :=
  ⟨⟨[], 0⟩, 0, false, false, [], [], 0, 0, 0, ⟨0, 0⟩, [0, 0, 0, 0], 0, 0⟩

/-- C6: the frame encoder selects the 7-bit length form when the payload
length is ≤ 125, the 16-bit big-endian form for 126..65535, and the 64-bit
big-endian form for larger lengths (the frame written to the transport is
`frameBytes`, whose length field is `l7val`/`lenBytes`); and the decoder
accepts any of the three encodings whose form can represent a length,
including non-minimal ones (`ParseLen` decodes the 7-bit form for any value
≤ 125, the 16-bit form for any value < 2^16, and the 64-bit form for any
value < 2^63, hence in particular for every length ≤ 2^62 − 1). -/
theorem c6_length_encoding_forms {τ : Type} (T : Tr τ) (c : Conn τ)
    (p : List Nat) (op : Nat) (final : Bool) (rkey : List Nat)
    (hw : c.wbuf = []) (hk : rkey.length = 4) (hp : p.length ≤ maxLen64) :
    (c.writeFrame T p op final rkey =
      match T.wr c.tr (frameBytes c.client op final rkey p) with
      | (n, some err, t) =>
        some (if n - (hdrSize c.client p.length : Int) < 0 then 0
            else n - (hdrSize c.client p.length : Int), some err,
          { c with wbuf := [], tr := t }, p)
      | (n, none, t) =>
        some (n - (hdrSize c.client p.length : Int), none,
          { c with wbuf := [], tr := t }, p)) ∧
    (p.length ≤ 125 → l7val p.length = p.length ∧ lenBytes p.length = []) ∧
    (126 ≤ p.length → p.length ≤ 65535 →
      l7val p.length = len16 ∧ lenBytes p.length = be16app p.length) ∧
    (65536 ≤ p.length →
      l7val p.length = len64 ∧ lenBytes p.length = be64app p.length) ∧
    (∀ (f : HeaderBits) (b : List Nat) (st : Int), f.len7 ≤ 125 →
      f.ParseLen b st = some ((f.len7 : Int), st)) ∧
    (∀ (f : HeaderBits) (pre rest : List Nat) (L : Nat),
      f.len7 = 126 → L < 2 ^ 16 →
      f.ParseLen (pre ++ (be16app L ++ rest)) (pre.length : Int) =
        some ((L : Int), (pre.length : Int) + 2)) ∧
    (∀ (f : HeaderBits) (pre rest : List Nat) (L : Nat),
      f.len7 = 127 → L < 2 ^ 63 →
      f.ParseLen (pre ++ (be64app L ++ rest)) (pre.length : Int) =
        some ((L : Int), (pre.length : Int) + 8)) := by
  refine ⟨writeFrame_eq T c p op final rkey hw hk hp, ?_, ?_, ?_,
    fun f b st h => ParseLen_len7 f b st h,
    fun f pre rest L h7 hL => ParseLen_ext16 f pre rest L h7 hL,
    fun f pre rest L h7 hL => ParseLen_ext64 f pre rest L h7 hL⟩
  · intro h
    have hx : p.length ≤ maxLen7 := by simp only [maxLen7]; omega
    constructor <;> simp [l7val, lenBytes, hx]
  · intro h1 h2
    have hx : ¬p.length ≤ maxLen7 := by simp only [maxLen7]; omega
    have hy : p.length ≤ maxLen16 := by simp only [maxLen16]; omega
    constructor <;> simp [l7val, lenBytes, hx, hy]
  · intro h
    have hx : ¬p.length ≤ maxLen7 := by simp only [maxLen7]; omega
    have hy : ¬p.length ≤ maxLen16 := by simp only [maxLen16]; omega
    constructor <;> simp [l7val, lenBytes, hx, hy]

end WS

namespace WS

/-- C6 witness: the theorem applied at a concrete connection, payload,
masking key, and concrete decoder inputs. -/
theorem c6_length_encoding_forms_witness :
    wConn.wbuf = [] ∧ ([1, 2, 3, 4] : List Nat).length = 4 ∧
      ([7] : List Nat).length ≤ maxLen64 ∧
      wConn.writeFrame FakeTr [7] FrameBinary true [1, 2, 3, 4] =
        some (1, none, { wConn with tr := ⟨[0x82, 1, 7], 0⟩ }, [7]) ∧
      (l7val 1 = 1 ∧ lenBytes 1 = []) ∧
      (HeaderBits.mk 0x82 126).ParseLen ([] ++ (be16app 300 ++ []))
          (([] : List Nat).length : Int) =
        some (300, (([] : List Nat).length : Int) + 2) := by
  have h := c6_length_encoding_forms FakeTr wConn [7] FrameBinary true
    [1, 2, 3, 4] rfl rfl (by decide)
  refine ⟨rfl, rfl, by decide, ?_, h.2.1 (by decide),
    h.2.2.2.2.2.1 (HeaderBits.mk 0x82 126) [] [] 300 rfl (by decide)⟩
  rw [h.1]
  decide

/-- C9: `writeFrame` returns with the caller's payload slice byte-for-byte
unchanged (last component `p`); the header, masking key and (for a client)
the masked payload are assembled inside the connection's write buffer and
handed to the transport as `frameBytes` — the caller's slice is never
written to. -/
theorem c9_caller_slice_unchanged {τ : Type} (T : Tr τ) (c : Conn τ)
    (p : List Nat) (op : Nat) (final : Bool) (rkey : List Nat)
    (hw : c.wbuf = []) (hk : rkey.length = 4) (hp : p.length ≤ maxLen64) :
    ∃ n e, c.writeFrame T p op final rkey =
      some (n, e, { c with wbuf := [], tr := (T.wr c.tr (frameBytes c.client op final rkey p)).2.2 }, p) := by
  rcases hwr : T.wr c.tr (frameBytes c.client op final rkey p) with ⟨n, e, t⟩
  rw [writeFrame_eq T c p op final rkey hw hk hp, hwr]
  rcases e with _ | err
  · exact ⟨n - (hdrSize c.client p.length : Int), none, rfl⟩
  · exact ⟨if n - (hdrSize c.client p.length : Int) < 0 then 0
      else n - (hdrSize c.client p.length : Int), some err, rfl⟩

/-- Concrete client-side connection over a fresh `FakeConn`. -/
def wConnC : Conn FakeConn := { wConn with client := 1 }

/-- C9 witness: a concrete client-side write; the caller's slice comes back
unchanged. -/
theorem c9_caller_slice_unchanged_witness :
    wConnC.wbuf = [] ∧ ([1, 2, 3, 4] : List Nat).length = 4 ∧
      ([5, 6] : List Nat).length ≤ maxLen64 ∧
      ∃ n e, wConnC.writeFrame FakeTr [5, 6] FrameText true [1, 2, 3, 4] =
        some (n, e, { wConnC with wbuf := [], tr := (FakeTr.wr wConnC.tr (frameBytes wConnC.client FrameText true [1, 2, 3, 4] [5, 6])).2.2 },
          [5, 6]) :=
  ⟨rfl, rfl, by decide,
    c9_caller_slice_unchanged FakeTr wConnC [5, 6]
      FrameText true [1, 2, 3, 4] rfl rfl (by decide)⟩

end WS

namespace WS

def defaultReadBufSize : Nat := 0x1000

def minReadBufSize : Nat := 0x20

/-- First stage of `Conn.read`: grow an undersized buffer to the default
size (discarding its contents, as the source's `make` does). -/
def Conn.readGrow {τ : Type} (c : Conn τ) : Conn τ :=
  if c.rbuf.length < minReadBufSize then
    { c with rbuf := List.replicate defaultReadBufSize 0 }
  else c

/-- Second stage of `Conn.read`: when `i ≥ end/2` (Go's truncated `int`
division), slide `rbuf[i:end]` down to offset 0 (`copy` is skipped when
`off ≥ end`) and shift all four cursors by `off = i`.  `none` models the
panic of an out-of-range `rbuf[off:end]`. -/
def Conn.readCompact {τ : Type} (c : Conn τ) : Option (Conn τ) :=
  if c.i ≥ Int.tdiv c.en 2 then
    (if c.i < c.en then
        (gslice c.rbuf c.i c.en).map fun seg =>
          { c with rbuf := seg ++ c.rbuf.drop (c.en - c.i).toNat }
      else some c).map fun c1 =>
      { c1 with st := c1.st - c.i, i := c1.i - c.i, en := c1.en - c.i, start := c1.start - c.i }
  else some c

/-- Third stage of `Conn.read`: clamp a negative `end` to 0. -/
def Conn.readClamp {τ : Type} (c : Conn τ) : Conn τ :=
  if c.en < 0 then { c with en := 0 } else c

/-- `Conn.read` (conn_read.go): grow, compact, clamp, panic (`none`) when
the buffer is still full, then issue one transport read into
`rbuf[end:]`. -/
def Conn.read {τ : Type} (T : Tr τ) (c : Conn τ) :
    Option (Int × Option GErr × Conn τ) :=
  (c.readGrow).readCompact.bind fun c2 =>
    if (c2.readClamp).en ≥ ((c2.readClamp).rbuf.length : Int) then
      none
    else
      match T.rd (c2.readClamp).tr ((c2.readClamp).rbuf.length - (c2.readClamp).en.toNat) with
      | (bs, e, t) =>
        some ((bs.length : Int), e,
          { c2.readClamp with tr := t, rbuf := (c2.readClamp).rbuf.take (c2.readClamp).en.toNat ++ bs ++ (c2.readClamp).rbuf.drop ((c2.readClamp).en.toNat + bs.length), en := (c2.readClamp).en + bs.length })

/-- `Conn.parseFrameHeader(b, st, key)` where `b = c.rbuf[:c.end]` is
passed by the caller.  Returns `(h, l, i, key2)` with `i = -1` signalling
an incomplete buffer and `key2` the key array after the call (the source
copies into `c.key` via `ReadMaskingKey` exactly on success).  NOTE:
`ParseLen` is called on the full `c.rbuf`, not on `b`, exactly as in the
source. -/
def Conn.parseFrameHeader {τ : Type} (c : Conn τ) (b : List Nat) (st : Int) :
    Option (HeaderBits × Int × Int × List Nat) :=
  if st + 2 > (b.length : Int) then
    some (⟨0, 0⟩, 0, -1, c.key)
  else if st < 0 then
    none
  else
    let h : HeaderBits := ⟨b.getD st.toNat 0, b.getD (st.toNat + 1) 0⟩
    match h.ParseLen c.rbuf (st + 2) with
    | none => none
    | some (l, i2) =>
      if i2 < 0 then
        some (h, 0, -1, c.key)
      else if h.Masked then
        match HeaderBits.ReadMaskingKey b i2 with
        | none => none
        | some (i3, k?) =>
          if i3 < 0 then
            some (h, 0, -1, c.key)
          else
            some (h, l, i3, k?.getD c.key)
      else
        some (h, l, i2, c.key)

/-- The parse-or-refill loop of `readFrameHeader` (fuel-indexed; `none`
models an execution that does not return: panic or infinite loop). -/
def Conn.rfhLoop {τ : Type} (T : Tr τ) :
    Nat → Conn τ → Option ((Nat × Bool × Int) × Option GErr × Conn τ)
  | 0, _ => none
  | fuel + 1, c =>
    match gslice c.rbuf 0 c.en with
    | none => none
    | some b =>
      match c.parseFrameHeader b c.st with
      | none => none
      | some (h, l, ip, key2) =>
        if ip > 0 then
          some ((h.Opcode', h.Fin', l), none,
            { c with header := h, start := ip, more := l, i := ip, key := key2 })
        else
          match c.read T with
          | none => none
          | some (n, e, c2) =>
            if n ≠ 0 ∧ isEOF e then
              Conn.rfhLoop T fuel c2
            else if e ≠ none then
              some ((0, false, l), e, c2)
            else
              Conn.rfhLoop T fuel c2

/-- Entry adjustment of `readFrameHeader`: skip the unread remainder of
the current frame (`i += more` when `more ≠ 0`). -/
def Conn.rfhSkip {τ : Type} (c : Conn τ) : Conn τ :=
  if c.more ≠ 0 then { c with i := c.i + c.more } else c

/-- `Conn.readFrameHeader`: EOF immediately when the reader is closed;
otherwise skip the unread remainder of the current frame, set `st := i`
and run the parse-or-refill loop. -/
def Conn.readFrameHeader {τ : Type} (T : Tr τ) (fuel : Nat) (c : Conn τ) :
    Option ((Nat × Bool × Int) × Option GErr × Conn τ) :=
  if c.readerClosed then
    some ((0, true, 0), some .eof, c)
  else
    Conn.rfhLoop T fuel { c.rfhSkip with st := (c.rfhSkip).i }

/-- The delivery loop of `appendFrame` (fuel-indexed).  `p` is the caller
buffer already grown to its final length, `n` the number of bytes already
in place, `more` the bytes still requested.  Each delivered segment is
unmasked in place with `mask(p[n:n+m], key, i−start)` after the copy. -/
def Conn.afLoop {τ : Type} (T : Tr τ) :
    Nat → Conn τ → List Nat → Nat → Int →
      Option (List Nat × Option GErr × Conn τ)
  | 0, _, _, _, _ => none
  | fuel + 1, c, p, n, more =>
    if more = 0 then
      some (p.take n, csel (c.more == 0) (some GErr.eof) none, c)
    else if c.i < c.en then
      let ed := min c.en (c.i + more)
      match gslice c.rbuf c.i ed with
      | none => none
      | some seg =>
        let m := min (p.length - n) seg.length
        let p2 := copyAt p n (seg.take m)
        let p3 := p2.take n ++
          maskBuf ((p2.drop n).take m) c.key (c.i - c.start) ++ p2.drop (n + m)
        Conn.afLoop T fuel { c with i := c.i + m, more := c.more - m }
          p3 (n + m) (more - m)
    else if more ≥ (c.rbuf.length : Int) - 0x10 then
      match T.rd c.tr more.toNat with
      | (bs, e, t) =>
        let c2 := { c with tr := t }
        if e ≠ none ∧ ¬isEOF e then
          some (p.take n, e, c2)
        else
          let m := bs.length
          let p2 := copyAt p n bs
          let p3 := p2.take n ++
            maskBuf ((p2.drop n).take m) c2.key (c2.i - c2.start) ++
            p2.drop (n + m)
          Conn.afLoop T fuel { c2 with i := c2.i + m, more := c2.more - m }
            p3 (n + m) (more - m)
    else
      match c.read T with
      | none => none
      | some (nr, e, c2) =>
        if (e ≠ none ∧ ¬isEOF e) ∨ nr = 0 then
          some (p.take n, e, c2)
        else
          Conn.afLoop T fuel c2 p n more

/-- `Conn.appendFrame(p, more)`: deliver up to `min(more, c.more)` payload
bytes, appended to `p`.  A negative request makes `slices.Grow` panic
(`none`). -/
def Conn.appendFrame {τ : Type} (T : Tr τ) (fuel : Nat) (c : Conn τ)
    (p : List Nat) (more : Int) : Option (List Nat × Option GErr × Conn τ) :=
  if c.more = 0 then
    some (p, some .eof, c)
  else
    let n := p.length
    let more := min more c.more
    if more < 0 then
      none
    else
      Conn.afLoop T fuel c (p ++ List.replicate more.toNat 0) n more

/-- `Conn.processPing`: rewrite the opcode nibble at `rbuf[st]` to Pong in
place and write `rbuf[st : i+more]` to the transport.  (`b &^ opcodeMask`
on a byte equals clearing the low nibble, `(b >>> 4) <<< 4`.) -/
def Conn.processPing {τ : Type} (T : Tr τ) (c : Conn τ) :
    Option (Option GErr × Conn τ) :=
  match gidx c.rbuf c.st with
  | none => none
  | some b0 =>
    match gset c.rbuf c.st (((b0 >>> 4) <<< 4) ||| FramePong) with
    | none => none
    | some rb =>
      let c := { c with rbuf := rb }
      match gslice c.rbuf c.st (c.i + c.more) with
      | none => none
      | some pong =>
        match T.wr c.tr pong with
        | (_, e, t) => some (e, { c with tr := t })

/-- `Conn.processClose`: set `readerClosed`, then classify the close
payload; up to `min(more, 128)` payload bytes are read by appending to
`rbuf[:end]` via `appendFrame`.  `binary.BigEndian.Uint16` on fewer than
two bytes panics (`none`). -/
def Conn.processClose {τ : Type} (T : Tr τ) (fuel : Nat) (c : Conn τ) :
    Option (Option GErr × Conn τ) :=
  let c := { c with readerClosed := true }
  if c.more = 0 then
    some (some .eof, c)
  else if c.more = 1 then
    match gidx c.rbuf c.i with
    | none => none
    | some b => some (some (.closeData b), c)
  else
    let size : Int := min c.more 128
    match gslice c.rbuf 0 c.en with
    | none => none
    | some p0 =>
      match c.appendFrame T fuel p0 size with
      | none => none
      | some (res, e, c2) =>
        let c3 := { c2 with rbuf := res }
        let e2 := if isEOF e then none else e
        match e2 with
        | some err => some (some err, c3)
        | none =>
          match gslice c3.rbuf c3.en (c3.rbuf.length : Int) with
          | none => none
          | some tail =>
            if tail.length < 2 then
              none
            else
              let status := be16get (tail.getD 0 0) (tail.getD 1 0)
              if tail.length = 2 then
                if status = StatusOK then
                  some (some .eof, c3)
                else
                  some (some (.status status), c3)
              else
                match gslice c3.rbuf (c3.en + 2) (c3.en + size) with
                | none => none
                | some txt => some (some (.statusText status txt), c3)

/-- The control-frame dispatch loop of `readDataFrameHeader`
(fuel-indexed; `hdrFuel` bounds each inner header/payload loop). -/
def Conn.rdfhLoop {τ : Type} (T : Tr τ) :
    Nat → Nat → Conn τ → Option ((Nat × Bool × Int) × Option GErr × Conn τ)
  | 0, _, _ => none
  | fuel + 1, hdrFuel, c =>
    match c.readFrameHeader T hdrFuel with
    | none => none
    | some (r, e, c2) =>
      match e with
      | some err => some (r, some err, c2)
      | none =>
        if r.1 = FrameContinue ∨ r.1 = FrameText ∨ r.1 = FrameBinary then
          some (r, none, c2)
        else if r.1 = FramePing then
          match c2.processPing T with
          | none => none
          | some (ep, c3) =>
            match ep with
            | some err => some ((r.1, false, 0), some err, c3)
            | none => Conn.rdfhLoop T fuel hdrFuel c3
        else if r.1 = FramePong then
          Conn.rdfhLoop T fuel hdrFuel c2
        else if r.1 = FrameClose then
          match c2.processClose T hdrFuel with
          | none => none
          | some (ec, c3) => some ((r.1, false, 0), ec, c3)
        else
          some ((r.1, false, 0), some .invalidFrame, c2)

/-- `Conn.readDataFrameHeader`. -/
def Conn.readDataFrameHeader {τ : Type} (T : Tr τ) (fuel hdrFuel : Nat)
    (c : Conn τ) : Option ((Nat × Bool × Int) × Option GErr × Conn τ) :=
  Conn.rdfhLoop T fuel hdrFuel c

/-- `Conn.ReadFrameHeader` (public; the mutex is not modelled). -/
def Conn.ReadFrameHeader {τ : Type} (T : Tr τ) (fuel hdrFuel : Nat)
    (c : Conn τ) : Option ((Nat × Bool × Int) × Option GErr × Conn τ) :=
  c.readDataFrameHeader T fuel hdrFuel

/-- `Conn.ReadRawFrameHeader` (public). -/
def Conn.ReadRawFrameHeader {τ : Type} (T : Tr τ) (fuel : Nat) (c : Conn τ) :
    Option ((Nat × Bool × Int) × Option GErr × Conn τ) :=
  c.readFrameHeader T fuel

/-- `Conn.Read(p)` (public).  `plen` is the caller's buffer size; the
returned list holds the bytes the call places in `p[:n]`.  The
end-of-payload `io.EOF` sentinel from `readFrame` is translated to
success. -/
def Conn.Read {τ : Type} (T : Tr τ) (fuel hdrFuel : Nat) (c : Conn τ)
    (plen : Nat) : Option (List Nat × Option GErr × Conn τ) :=
  if c.more ≠ 0 then
    match c.appendFrame T hdrFuel [] (plen : Int) with
    | none => none
    | some (res, e, c2) => some (res, if isEOF e then none else e, c2)
  else
    match c.readDataFrameHeader T fuel hdrFuel with
    | none => none
    | some (r, e, c2) =>
      match e with
      | some err => some ([], some err, c2)
      | none =>
        match c2.appendFrame T hdrFuel [] (plen : Int) with
        | none => none
        | some (res, e2, c3) => some (res, if isEOF e2 then none else e2, c3)

/-- `Conn.ReadFrame(p)` (public): `appendFrame(p[:0], len(p))`, returning
the byte count. -/
def Conn.ReadFrame {τ : Type} (T : Tr τ) (fuel : Nat) (c : Conn τ)
    (plen : Nat) : Option (List Nat × Option GErr × Conn τ) :=
  c.appendFrame T fuel [] (plen : Int)

/-- Oracle transport replaying a fixed script of read responses (each
response is truncated to the requested space, a legal `io.Reader`
behaviour; an exhausted script blocks forever, returning `(0, nil)`);
writes are recorded in `out`. -/
structure ScriptT where
  script : List (List Nat × Option GErr)
  out : List Nat
  deriving DecidableEq

def ScriptT.rd (t : ScriptT) (space : Nat) : List Nat × Option GErr × ScriptT :=
  match t.script with
  | [] => ([], none, t)
  | (bs, e) :: rest => (bs.take space, e, ⟨rest, t.out⟩)

def ScriptT.wr (t : ScriptT) (p : List Nat) : Int × Option GErr × ScriptT :=
  ((p.length : Int), none, ⟨t.script, t.out ++ p⟩)

def ScriptTr : Tr ScriptT where
  rd := ScriptT.rd
  wr := ScriptT.wr
  rd_le := by
    intro t n
    unfold ScriptT.rd
    rcases t.script with _ | ⟨⟨bs, e⟩, rest⟩ <;> simp

end WS

namespace WS

/-- A reader over a fresh `FakeConn` carrying `wire`, with a `cbuf`-byte
read buffer, as the fuzz harness constructs it. -/
def mkReader (wire : List Nat) (cbuf : Nat) : Conn FakeConn :=
  ⟨⟨wire, 0⟩, 0, false, false, [], List.replicate cbuf 0, 0, 0, 0, ⟨0, 0⟩,
    [0, 0, 0, 0], 0, 0⟩

example :
    ((mkReader [0x82, 2, 7, 8] 32).Read FakeTr 20 20 10).map
      (fun r => (r.1, r.2.1, r.2.2.more)) = some ([7, 8], none, 0) := by
  decide

example :
    ((mkReader [0x82, 2, 7, 8] 32).Read FakeTr 20 20 1).map
      (fun r => (r.1, r.2.1, r.2.2.more)) = some ([7], none, 1) := by
  decide

example :
    (((mkReader [0x82, 2, 7, 8, 0x82, 1, 9] 32).Read FakeTr 20 20 10).bind
      (fun r => (r.2.2.Read FakeTr 20 20 10).bind
        (fun r2 => (r2.2.2.Read FakeTr 20 20 10).map
          (fun r3 => (r.1, r.2.1, r2.1, r2.2.1, r3.1, r3.2.1))))) =
      some ([7, 8], none, [9], none, [], some .eof) := by
  rfl

end WS

namespace WS

example :
    ((mkReader ([0x82, 40] ++ List.replicate 40 5) 32).Read FakeTr 99 99 40).map
      (fun r => (r.1.length, r.2.1, r.2.2.st, r.2.2.i, r.2.2.en)) =
      some (40, none, -32, 10, 10) := by
  decide

example :
    ((mkReader ([0x82, 48] ++ List.replicate 48 5) 32).Read FakeTr 99 99 48).map
      (fun r => (r.1.length, r.2.1, r.2.2.st, r.2.2.i, r.2.2.en)) =
      some (48, none, 0, 50, 32) := by
  decide

set_option maxRecDepth 10000 in
example :
    (((mkReader ([0x88, 126, 0, 130] ++ List.replicate 130 3) 150).ReadFrameHeader
        FakeTr 20 99).bind
      (fun r => (r.2.2.Read FakeTr 20 99 10).map
        (fun r2 => (r.2.1, r.2.2.readerClosed, r.2.2.more, r2.1, r2.2.1)))) =
      some (some (.statusText 771 (List.replicate 126 3)), true, 2, [3, 3], none) := by
  decide

example :
    (((mkReader [0x89, 2, 1, 2, 0x82, 1, 7] 32).Read FakeTr 20 20 10).map
      (fun r => (r.1, r.2.1, r.2.2.tr.b))) =
      some ([7], none, [0x89, 2, 1, 2, 0x82, 1, 7] ++ [0x8A, 2, 1, 2]) := by
  decide

end WS

namespace WS

theorem readGrow_readerClosed {τ : Type} (c : Conn τ) :
    (c.readGrow).readerClosed = c.readerClosed := by
  unfold Conn.readGrow
  split <;> rfl

theorem readCompact_readerClosed {τ : Type} (c c2 : Conn τ)
    (h : c.readCompact = some c2) : c2.readerClosed = c.readerClosed := by
  unfold Conn.readCompact at h
  split at h
  · split at h
    · rcases hg : gslice c.rbuf c.i c.en with _ | seg <;> rw [hg] at h
      · simp at h
      · simp only [Option.map_some', Option.some.injEq] at h
        subst h
        rfl
    · simp only [Option.map_some', Option.some.injEq] at h
      subst h
      rfl
  · simp only [Option.some.injEq] at h
    subst h
    rfl

theorem readClamp_readerClosed {τ : Type} (c : Conn τ) :
    (c.readClamp).readerClosed = c.readerClosed := by
  unfold Conn.readClamp
  split <;> rfl

theorem read_readerClosed {τ : Type} (T : Tr τ) (c : Conn τ) (n : Int)
    (e : Option GErr) (c2 : Conn τ) (h : c.read T = some (n, e, c2)) :
    c2.readerClosed = c.readerClosed := by
  unfold Conn.read at h
  rw [Option.bind_eq_some] at h
  obtain ⟨c3, hc, h⟩ := h
  split at h
  · exact absurd h (by simp)
  · simp only [Option.some.injEq, Prod.mk.injEq] at h
    rcases h with ⟨-, -, rfl⟩
    have h1 := readCompact_readerClosed _ _ hc
    have h2 := readGrow_readerClosed c
    have h3 := readClamp_readerClosed c3
    simp_all

theorem rfhLoop_readerClosed {τ : Type} (T : Tr τ) (fuel : Nat) :
    ∀ (c : Conn τ) r e c2, Conn.rfhLoop T fuel c = some (r, e, c2) →
      c2.readerClosed = c.readerClosed := by
  induction fuel with
  | zero =>
    intro c r e c2 h
    exact absurd h (by simp [Conn.rfhLoop])
  | succ fuel ih =>
    intro c r e c2 h
    simp only [Conn.rfhLoop] at h
    rcases hg : gslice c.rbuf 0 c.en with _ | b <;> simp only [hg] at h
    · exact absurd h (by simp)
    rcases hp : c.parseFrameHeader b c.st with _ | ⟨hh, l, ip, key2⟩ <;>
      simp only [hp] at h
    · exact absurd h (by simp)
    split at h
    · simp only [Option.some.injEq, Prod.mk.injEq] at h
      rcases h with ⟨-, -, rfl⟩
      rfl
    · rcases hr : c.read T with _ | ⟨n, e3, c3⟩ <;> simp only [hr] at h
      · exact absurd h (by simp)
      have hrc := read_readerClosed T c n e3 c3 hr
      split at h
      · rw [ih c3 r e c2 h, hrc]
      · split at h
        · simp only [Option.some.injEq, Prod.mk.injEq] at h
          rcases h with ⟨-, -, rfl⟩
          exact hrc
        · rw [ih c3 r e c2 h, hrc]

theorem readFrameHeader_readerClosed {τ : Type} (T : Tr τ) (fuel : Nat)
    (c : Conn τ) (r : Nat × Bool × Int) (e : Option GErr) (c2 : Conn τ)
    (h : c.readFrameHeader T fuel = some (r, e, c2)) :
    c2.readerClosed = c.readerClosed := by
  unfold Conn.readFrameHeader at h
  split at h
  · simp only [Option.some.injEq, Prod.mk.injEq] at h
    rcases h with ⟨-, -, rfl⟩
    rfl
  · have h2 := rfhLoop_readerClosed T fuel _ r e c2 h
    rw [h2]
    unfold Conn.rfhSkip
    split <;> rfl

theorem afLoop_readerClosed {τ : Type} (T : Tr τ) (fuel : Nat) :
    ∀ (c : Conn τ) p n more res e c2,
      Conn.afLoop T fuel c p n more = some (res, e, c2) →
      c2.readerClosed = c.readerClosed := by
  induction fuel with
  | zero =>
    intro c p n more res e c2 h
    exact absurd h (by simp [Conn.afLoop])
  | succ fuel ih =>
    intro c p n more res e c2 h
    simp only [Conn.afLoop] at h
    split at h
    · simp only [Option.some.injEq, Prod.mk.injEq] at h
      rcases h with ⟨-, -, rfl⟩
      rfl
    · split at h
      · rcases hg : gslice c.rbuf c.i (min c.en (c.i + more)) with _ | seg <;>
          simp only [hg] at h
        · exact absurd h (by simp)
        · have hx := ih _ _ _ _ res e c2 h
          exact hx
      · split at h
        · rcases hr : T.rd c.tr more.toNat with ⟨bs, e3, t⟩
          simp only [hr] at h
          split at h
          · simp only [Option.some.injEq, Prod.mk.injEq] at h
            rcases h with ⟨-, -, rfl⟩
            rfl
          · have hx := ih _ _ _ _ res e c2 h
            exact hx
        · rcases hr : c.read T with _ | ⟨nr, e3, c3⟩ <;> simp only [hr] at h
          · exact absurd h (by simp)
          have hrc := read_readerClosed T c nr e3 c3 hr
          split at h
          · simp only [Option.some.injEq, Prod.mk.injEq] at h
            rcases h with ⟨-, -, rfl⟩
            exact hrc
          · have hx := ih _ _ _ _ res e c2 h
            rw [hx, hrc]

theorem appendFrame_readerClosed {τ : Type} (T : Tr τ) (fuel : Nat)
    (c : Conn τ) (p : List Nat) (more : Int) (res : List Nat)
    (e : Option GErr) (c2 : Conn τ)
    (h : c.appendFrame T fuel p more = some (res, e, c2)) :
    c2.readerClosed = c.readerClosed := by
  simp only [Conn.appendFrame] at h
  split at h
  · simp only [Option.some.injEq, Prod.mk.injEq] at h
    rcases h with ⟨-, -, rfl⟩
    rfl
  · split at h
    · exact absurd h (by simp)
    · exact afLoop_readerClosed T fuel _ _ _ _ res e c2 h

theorem processPing_readerClosed {τ : Type} (T : Tr τ) (c : Conn τ)
    (e : Option GErr) (c2 : Conn τ) (h : c.processPing T = some (e, c2)) :
    c2.readerClosed = c.readerClosed := by
  simp only [Conn.processPing] at h
  rcases h0 : gidx c.rbuf c.st with _ | b0 <;> simp only [h0] at h
  · exact absurd h (by simp)
  rcases h1 : gset c.rbuf c.st (b0 >>> 4 <<< 4 ||| FramePong) with _ | rb <;>
    simp only [h1] at h
  · exact absurd h (by simp)
  rcases h2 : gslice rb c.st (c.i + c.more) with _ | pong <;>
    simp only [h2] at h
  · exact absurd h (by simp)
  rcases h3 : T.wr c.tr pong with ⟨n, e3, t⟩
  simp only [h3] at h
  simp only [Option.some.injEq, Prod.mk.injEq] at h
  rcases h with ⟨-, rfl⟩
  rfl

theorem processClose_readerClosed {τ : Type} (T : Tr τ) (fuel : Nat)
    (c : Conn τ) (e : Option GErr) (c2 : Conn τ)
    (h : c.processClose T fuel = some (e, c2)) :
    c2.readerClosed = true := by
  simp only [Conn.processClose] at h
  split at h
  · simp only [Option.some.injEq, Prod.mk.injEq] at h
    rcases h with ⟨-, rfl⟩
    rfl
  · split at h
    · rcases h0 : gidx c.rbuf c.i with _ | b <;> simp only [h0] at h
      · exact absurd h (by simp)
      simp only [Option.some.injEq, Prod.mk.injEq] at h
      rcases h with ⟨-, rfl⟩
      rfl
    · rcases h0 : gslice c.rbuf 0 c.en with _ | p0 <;> simp only [h0] at h
      · exact absurd h (by simp)
      rcases h1 : Conn.appendFrame T fuel { c with readerClosed := true } p0
          (min c.more 128) with _ | ⟨res, e3, c3⟩ <;>
        simp only [h1] at h
      · exact absurd h (by simp)
      have h2 : c3.readerClosed = true :=
        appendFrame_readerClosed T fuel _ p0 (min c.more 128) res e3 c3 h1
      split at h
      · simp only [Option.some.injEq, Prod.mk.injEq] at h
        rcases h with ⟨-, rfl⟩
        exact h2
      · rcases h3 : gslice res c3.en (res.length : Int) with _ | tail <;>
          simp only [h3] at h
        · exact absurd h (by simp)
        split at h
        · exact absurd h (by simp)
        · split at h
          · split at h <;>
              (simp only [Option.some.injEq, Prod.mk.injEq] at h;
                rcases h with ⟨-, rfl⟩;
                exact h2)
          · rcases h4 : gslice res (c3.en + 2) (c3.en + min c.more 128)
                with _ | txt <;> simp only [h4] at h
            · exact absurd h (by simp)
            simp only [Option.some.injEq, Prod.mk.injEq] at h
            rcases h with ⟨-, rfl⟩
            exact h2

theorem rdfhLoop_readerClosed {τ : Type} (T : Tr τ) (fuel : Nat) :
    ∀ (hdrFuel : Nat) (c : Conn τ) r e c2,
      Conn.rdfhLoop T fuel hdrFuel c = some (r, e, c2) →
      c.readerClosed = true → c2.readerClosed = true := by
  induction fuel with
  | zero =>
    intro hdrFuel c r e c2 h
    exact absurd h (by simp [Conn.rdfhLoop])
  | succ fuel ih =>
    intro hdrFuel c r e c2 h hcl
    simp only [Conn.rdfhLoop] at h
    rcases hh : c.readFrameHeader T hdrFuel with _ | ⟨r3, _ | err, c3⟩ <;>
      simp only [hh] at h
    · exact absurd h (by simp)
    · have h3 : c3.readerClosed = true := by
        rw [readFrameHeader_readerClosed T hdrFuel c r3 none c3 hh]
        exact hcl
      split at h
      · simp only [Option.some.injEq, Prod.mk.injEq] at h
        rcases h with ⟨-, -, rfl⟩
        exact h3
      · split at h
        · rcases hp : c3.processPing T with _ | ⟨_ | err2, c4⟩ <;>
            simp only [hp] at h
          · exact absurd h (by simp)
          · have h4 : c4.readerClosed = true := by
              rw [processPing_readerClosed T c3 none c4 hp]
              exact h3
            exact ih hdrFuel c4 r e c2 h h4
          · have h4 : c4.readerClosed = true := by
              rw [processPing_readerClosed T c3 (some err2) c4 hp]
              exact h3
            simp only [Option.some.injEq, Prod.mk.injEq] at h
            rcases h with ⟨-, -, rfl⟩
            exact h4
        · split at h
          · exact ih hdrFuel c3 r e c2 h h3
          · split at h
            · rcases hq : c3.processClose T hdrFuel with _ | ⟨ec, c4⟩ <;>
                simp only [hq] at h
              · exact absurd h (by simp)
              simp only [Option.some.injEq, Prod.mk.injEq] at h
              rcases h with ⟨-, -, rfl⟩
              exact processClose_readerClosed T hdrFuel c3 ec c4 hq
            · simp only [Option.some.injEq, Prod.mk.injEq] at h
              rcases h with ⟨-, -, rfl⟩
              exact h3
    · have h3 : c3.readerClosed = true := by
        rw [readFrameHeader_readerClosed T hdrFuel c r3 (some err) c3 hh]
        exact hcl
      simp only [Option.some.injEq, Prod.mk.injEq] at h
      rcases h with ⟨-, -, rfl⟩
      exact h3

theorem Read_readerClosed {τ : Type} (T : Tr τ) (fuel hdrFuel : Nat)
    (c : Conn τ) (plen : Nat) (res : List Nat) (e : Option GErr) (c2 : Conn τ)
    (h : c.Read T fuel hdrFuel plen = some (res, e, c2))
    (hcl : c.readerClosed = true) : c2.readerClosed = true := by
  unfold Conn.Read at h
  split at h
  · rcases ha : Conn.appendFrame T hdrFuel c [] (plen : Int) with
      _ | ⟨res2, e2, c3⟩ <;> simp only [ha] at h
    · exact absurd h (by simp)
    simp only [Option.some.injEq, Prod.mk.injEq] at h
    rcases h with ⟨-, -, rfl⟩
    rw [appendFrame_readerClosed T hdrFuel c [] (plen : Int) res2 e2 c3 ha]
    exact hcl
  · rcases hd : c.readDataFrameHeader T fuel hdrFuel with
      _ | ⟨r2, _ | err, c3⟩ <;> simp only [hd] at h
    · exact absurd h (by simp)
    · have h3 : c3.readerClosed = true :=
        rdfhLoop_readerClosed T fuel hdrFuel c r2 none c3 hd hcl
      rcases ha : Conn.appendFrame T hdrFuel c3 [] (plen : Int) with
        _ | ⟨res2, e3, c4⟩ <;> simp only [ha] at h
      · exact absurd h (by simp)
      simp only [Option.some.injEq, Prod.mk.injEq] at h
      rcases h with ⟨-, -, rfl⟩
      rw [appendFrame_readerClosed T hdrFuel c3 [] (plen : Int) res2 e3 c4 ha]
      exact h3
    · have h3 : c3.readerClosed = true :=
        rdfhLoop_readerClosed T fuel hdrFuel c r2 (some err) c3 hd hcl
      simp only [Option.some.injEq, Prod.mk.injEq] at h
      rcases h with ⟨-, -, rfl⟩
      exact h3

end WS

namespace WS

/-- C10 counterexample: a Close frame with a 130-byte payload.
`ReadFrameHeader` processes the close (`readerClosed` becomes true,
`processClose` consumed only 128 of the 130 payload bytes, so `more = 2`);
the very next `Read` does NOT return the end-of-stream sentinel: it
delivers the two residual close-payload bytes with no error. -/
theorem c10_counterexample :
    (((mkReader ([0x88, 126, 0, 130] ++ List.replicate 130 3) 150).ReadFrameHeader
        FakeTr 20 99).bind
      (fun r => (r.2.2.Read FakeTr 20 99 10).map
        (fun r2 => (r.2.2.readerClosed, r.2.2.more, r2.1, r2.2.1)))) =
      some (true, 2, [3, 3], none) ∧
      ((none : Option GErr) ≠ some .eof ∧ ([3, 3] : List Nat) ≠ []) := by
  constructor
  · set_option maxRecDepth 10000 in decide
  · decide

/-- C10 (amended): `processClose` sets `readerClosed`, and no read-side
operation ever clears it; once it is set, `ReadRawFrameHeader` and
`ReadFrameHeader` return `io.EOF` immediately with the connection (hence
the transport) untouched, and so does `Read` when no residual frame
payload remains (`more = 0`).  (When the close payload exceeded 128 bytes,
`more > 0` remains and the next `Read` instead drains those residual
payload bytes — the counterexample.) -/
theorem c10_readerClosed_latched {τ : Type} (T : Tr τ) (fuel hdrFuel plen : Nat)
    (c : Conn τ) (hcl : c.readerClosed = true) (hf : 1 ≤ fuel) :
    (∀ fuel2 e c2, c.processClose T fuel2 = some (e, c2) →
      c2.readerClosed = true) ∧
    (∀ res e c2, c.Read T fuel hdrFuel plen = some (res, e, c2) →
      c2.readerClosed = true) ∧
    (∀ r e c2, c.ReadFrameHeader T fuel hdrFuel = some (r, e, c2) →
      c2.readerClosed = true) ∧
    (∀ r e c2, c.ReadRawFrameHeader T fuel = some (r, e, c2) →
      c2.readerClosed = true) ∧
    (∀ res e c2, c.ReadFrame T fuel plen = some (res, e, c2) →
      c2.readerClosed = true) ∧
    c.ReadRawFrameHeader T fuel = some ((0, true, 0), some .eof, c) ∧
    c.ReadFrameHeader T fuel hdrFuel = some ((0, true, 0), some .eof, c) ∧
    (c.more = 0 → c.Read T fuel hdrFuel plen = some ([], some .eof, c)) := by
  obtain ⟨f, rfl⟩ : ∃ f, fuel = f + 1 := ⟨fuel - 1, by omega⟩
  have hraw : c.ReadRawFrameHeader T (f + 1) = some ((0, true, 0), some .eof, c) := by
    simp [Conn.ReadRawFrameHeader, Conn.readFrameHeader, hcl]
  have hdfh : c.readDataFrameHeader T (f + 1) hdrFuel =
      some ((0, true, 0), some .eof, c) := by
    simp only [Conn.readDataFrameHeader, Conn.rdfhLoop]
    rw [show c.readFrameHeader T hdrFuel = some ((0, true, 0), some .eof, c) by
      simp [Conn.readFrameHeader, hcl]]
  refine ⟨fun fuel2 e c2 h => processClose_readerClosed T fuel2 c e c2 h,
    fun res e c2 h => Read_readerClosed T (f + 1) hdrFuel c plen res e c2 h hcl,
    fun r e c2 h => rdfhLoop_readerClosed T (f + 1) hdrFuel c r e c2 h hcl,
    fun r e c2 h => ?_,
    fun res e c2 h => ?_, hraw, hdfh, fun hm => ?_⟩
  · rw [readFrameHeader_readerClosed T (f + 1) c r e c2 h]
    exact hcl
  · rw [appendFrame_readerClosed T (f + 1) c [] (plen : Int) res e c2 h]
    exact hcl
  · unfold Conn.Read
    rw [if_neg (by simp [hm])]
    rw [hdfh]

/-- C10 witness: the amended theorem applied to a concrete closed
connection. -/
theorem c10_readerClosed_latched_witness :
    ({ mkReader [9, 9] 32 with readerClosed := true }).readerClosed = true ∧
      1 ≤ 5 ∧
      ({ mkReader [9, 9] 32 with readerClosed := true }).ReadRawFrameHeader
          FakeTr 5 =
        some ((0, true, 0), some .eof,
          { mkReader [9, 9] 32 with readerClosed := true }) := by
  refine ⟨rfl, by decide, ?_⟩
  exact (c10_readerClosed_latched FakeTr 5 7 11
    { mkReader [9, 9] 32 with readerClosed := true } rfl (by decide)).2.2.2.2.2.1

end WS

namespace WS

theorem gslice_eq_sl (b : List Nat) (a e : Int) (h0 : 0 ≤ a) (h1 : a ≤ e)
    (h2 : e ≤ (b.length : Int)) : gslice b a e = some (sl b a e) := by
  unfold gslice sl
  rw [if_pos ⟨h0, h1, h2⟩]

theorem sl_length (b : List Nat) (a e : Int) (h0 : 0 ≤ a) (h1 : a ≤ e)
    (h2 : e ≤ (b.length : Int)) : ((sl b a e).length : Int) = e - a := by
  unfold sl
  simp only [List.length_drop, List.length_take]
  omega

theorem copyAt_length (p src : List Nat) (n : Nat)
    (h : n + src.length ≤ p.length) : (copyAt p n src).length = p.length := by
  unfold copyAt
  simp only [List.length_append, List.length_take, List.length_drop]
  omega

theorem copyAt_take (p src : List Nat) (n : Nat) (h : n ≤ p.length) :
    (copyAt p n src).take n = p.take n := by
  unfold copyAt
  rw [List.take_append_of_le_length (by simp; omega),
    List.take_append_of_le_length (by simp; omega), List.take_take]
  simp

theorem copyAt_middle (p src : List Nat) (n : Nat)
    (h : n + src.length ≤ p.length) :
    ((copyAt p n src).drop n).take src.length = src := by
  unfold copyAt
  rw [List.drop_append_of_le_length (by simp; omega),
    List.drop_append_of_le_length (by simp; omega),
    List.drop_eq_nil_of_le (by simp),
    List.nil_append,
    List.take_append_of_le_length (by simp),
    List.take_length]

theorem take_len_append (A B C : List Nat) :
    ((A ++ B) ++ C).take (A.length + B.length) = A ++ B := by
  rw [List.take_append_of_le_length (by simp),
    List.take_of_length_le (by simp)]

end WS

namespace WS

theorem afLoop_buffered {τ : Type} (T : Tr τ) (fuel : Nat) (c : Conn τ)
    (p : List Nat) (n : Nat) (more : Int) (h0 : 0 ≤ c.i)
    (h2 : c.i + more ≤ c.en) (h3 : c.en ≤ (c.rbuf.length : Int))
    (h4 : 1 ≤ more) (h5 : (p.length : Int) = (n : Int) + more)
    (h6 : 2 ≤ fuel) :
    Conn.afLoop T fuel c p n more =
      some (p.take n ++ maskBuf (sl c.rbuf c.i (c.i + more)) c.key (c.i - c.start),
        csel (c.more - more == 0) (some GErr.eof) none,
        { c with i := c.i + more, more := c.more - more }) := by
  obtain ⟨f, rfl⟩ : ∃ f, fuel = f + 2 := ⟨fuel - 2, by omega⟩
  have hmin : min c.en (c.i + more) = c.i + more := min_eq_right h2
  have hslice := gslice_eq_sl c.rbuf c.i (c.i + more) h0 (by omega) (by omega)
  have hslen : ((sl c.rbuf c.i (c.i + more)).length : Int) = more := by
    rw [sl_length c.rbuf c.i (c.i + more) h0 (by omega) (by omega)]
    omega
  have hm : min (p.length - n) (sl c.rbuf c.i (c.i + more)).length =
      (sl c.rbuf c.i (c.i + more)).length := by omega
  simp only [Conn.afLoop]
  rw [if_neg (by omega), if_pos (by omega), hmin, hslice]
  simp only [hm]
  have hseg : (sl c.rbuf c.i (c.i + more)).take
      (sl c.rbuf c.i (c.i + more)).length = sl c.rbuf c.i (c.i + more) :=
    List.take_length _
  rw [hseg]
  have hcap : n + (sl c.rbuf c.i (c.i + more)).length ≤ p.length := by omega
  have hmid := copyAt_middle p (sl c.rbuf c.i (c.i + more)) n hcap
  rw [hmid]
  have hcast : ((sl c.rbuf c.i (c.i + more)).length : Int) = more := hslen
  have hz : more - ((sl c.rbuf c.i (c.i + more)).length : Int) = 0 := by omega
  rw [hz]
  simp only [Conn.afLoop, if_pos rfl]
  have htk := copyAt_take p (sl c.rbuf c.i (c.i + more)) n (by omega)
  rw [show (copyAt p n (sl c.rbuf c.i (c.i + more))).take n ++
        maskBuf (sl c.rbuf c.i (c.i + more)) c.key (c.i - c.start) ++
        (copyAt p n (sl c.rbuf c.i (c.i + more))).drop
          (n + (sl c.rbuf c.i (c.i + more)).length) =
      ((copyAt p n (sl c.rbuf c.i (c.i + more))).take n ++
        maskBuf (sl c.rbuf c.i (c.i + more)) c.key (c.i - c.start)) ++
        (copyAt p n (sl c.rbuf c.i (c.i + more))).drop
          (n + (sl c.rbuf c.i (c.i + more)).length) from rfl]
  rw [show n + (sl c.rbuf c.i (c.i + more)).length =
      ((copyAt p n (sl c.rbuf c.i (c.i + more))).take n).length +
        (maskBuf (sl c.rbuf c.i (c.i + more)) c.key (c.i - c.start)).length by
    rw [maskBuf_length, List.length_take, copyAt_length p _ n hcap]
    omega]
  rw [take_len_append, htk, if_pos trivial, hcast]

end WS

namespace WS

theorem appendFrame_buffered {τ : Type} (T : Tr τ) (fuel : Nat) (c : Conn τ)
    (p : List Nat) (more : Int) (h0 : 0 ≤ c.i)
    (h2 : c.i + min more c.more ≤ c.en) (h3 : c.en ≤ (c.rbuf.length : Int))
    (h4 : 1 ≤ min more c.more) (h6 : 2 ≤ fuel) :
    c.appendFrame T fuel p more =
      some (p ++ maskBuf (sl c.rbuf c.i (c.i + min more c.more)) c.key
          (c.i - c.start),
        csel (c.more - min more c.more == 0) (some GErr.eof) none,
        { c with i := c.i + min more c.more, more := c.more - min more c.more }) := by
  simp only [Conn.appendFrame]
  rw [if_neg (by omega), if_neg (by omega)]
  have hlen : (((p ++ List.replicate (min more c.more).toNat 0).length : Nat) : Int) =
      (p.length : Int) + min more c.more := by
    simp only [List.length_append, List.length_replicate]
    omega
  rw [afLoop_buffered T fuel c _ p.length (min more c.more) h0 h2 h3 h4 hlen h6]
  rw [List.take_append_of_le_length (le_refl _), List.take_length]

end WS

namespace WS

/-- C2: classification of a received Close frame by `processClose`, with
the (unmasked) close payload buffered.  Empty payload: end-of-stream with
no status.  One byte: the malformed-close error.  Exactly two bytes
holding big-endian 1000: end-of-stream.  Status ≠ 1000 or a reason after
the status: a typed error carrying the 16-bit status (and the reason
text), having consumed exactly `min(more, 128)` payload bytes. -/
theorem c2_processClose_classification {τ : Type} (T : Tr τ) (fuel : Nat)
    (c : Conn τ) (hkey : c.key = [0, 0, 0, 0]) (h0 : 0 ≤ c.i)
    (h3 : c.en ≤ (c.rbuf.length : Int))
    (hbuf : c.i + min c.more 128 ≤ c.en) (hf : 2 ≤ fuel) :
    (c.more = 0 → c.processClose T fuel =
      some (some .eof, { c with readerClosed := true })) ∧
    (c.more = 1 → c.processClose T fuel =
      some (some (.closeData (c.rbuf.getD c.i.toNat 0)),
        { c with readerClosed := true })) ∧
    (2 ≤ c.more →
      c.processClose T fuel =
        some (some (
          if c.more = 2 then
            if be16get ((sl c.rbuf c.i (c.i + min c.more 128)).getD 0 0)
                ((sl c.rbuf c.i (c.i + min c.more 128)).getD 1 0) = StatusOK then
              GErr.eof
            else
              GErr.status (be16get ((sl c.rbuf c.i (c.i + min c.more 128)).getD 0 0)
                ((sl c.rbuf c.i (c.i + min c.more 128)).getD 1 0))
          else
            GErr.statusText
              (be16get ((sl c.rbuf c.i (c.i + min c.more 128)).getD 0 0)
                ((sl c.rbuf c.i (c.i + min c.more 128)).getD 1 0))
              ((sl c.rbuf c.i (c.i + min c.more 128)).drop 2)),
          { c with readerClosed := true, i := c.i + min c.more 128, more := c.more - min c.more 128, rbuf := sl c.rbuf 0 c.en ++ sl c.rbuf c.i (c.i + min c.more 128) })) := by
  refine ⟨?_, ?_, ?_⟩
  · intro h
    simp only [Conn.processClose]
    rw [if_pos h]
  · intro h
    simp only [Conn.processClose]
    rw [if_neg (by omega), if_pos h]
    unfold gidx
    rw [if_pos ⟨h0, by omega⟩]
  · intro h
    have hsize1 : (1 : Int) ≤ min c.more 128 := by omega
    simp only [Conn.processClose]
    rw [if_neg (by omega), if_neg (by omega)]
    rw [gslice_eq_sl c.rbuf 0 c.en (by omega) (by omega) h3]
    dsimp only
    have hap := appendFrame_buffered T fuel { c with readerClosed := true }
      (sl c.rbuf 0 c.en) (min c.more 128) (by dsimp only; omega)
      (by dsimp only; omega) (by dsimp only; exact h3) (by dsimp only; omega) hf
    dsimp only at hap
    rw [show min (min c.more 128) c.more = min c.more 128 by omega] at hap
    rw [hap, hkey, maskBuf_zero_key]
    set P0 := sl c.rbuf 0 c.en with hP0
    set Pay := sl c.rbuf c.i (c.i + min c.more 128) with hPay
    have hpaylen : ((Pay.length : Nat) : Int) = min c.more 128 := by
      rw [hPay, sl_length c.rbuf c.i (c.i + min c.more 128) h0 (by omega) (by omega)]
      omega
    have hp0len : (P0.length : Int) = c.en := by
      rw [hP0, sl_length c.rbuf 0 c.en (by omega) (by omega) h3]
      omega
    have hres : (((P0 ++ Pay).length : Nat) : Int) = c.en + min c.more 128 := by
      rw [List.length_append]
      push_cast
      omega
    have he : (if isEOF (csel (c.more - min c.more 128 == 0) (some GErr.eof)
        none) then none else csel (c.more - min c.more 128 == 0)
        (some GErr.eof) none) = (none : Option GErr) := by
      unfold csel
      split <;> simp [isEOF]
    dsimp only
    rw [he]
    dsimp only
    rw [gslice_eq_sl (P0 ++ Pay) c.en ((P0 ++ Pay).length : Int) (by omega)
      (by omega) (by omega)]
    dsimp only
    have htail : sl (P0 ++ Pay) c.en ((P0 ++ Pay).length : Int) = Pay := by
      unfold sl
      rw [Int.toNat_natCast, List.take_length]
      rw [show c.en.toNat = P0.length by omega]
      exact List.drop_left _ _
    rw [htail]
    rw [if_neg (show ¬Pay.length < 2 by omega)]
    by_cases hc2 : c.more = 2
    · rw [if_pos (show Pay.length = 2 by omega), if_pos hc2]
      split <;> rfl
    · rw [if_neg (show ¬Pay.length = 2 by omega), if_neg hc2]
      rw [gslice_eq_sl (P0 ++ Pay) (c.en + 2) (c.en + min c.more 128)
        (by omega) (by omega) (by omega)]
      dsimp only
      have htxt : sl (P0 ++ Pay) (c.en + 2) (c.en + min c.more 128) =
          Pay.drop 2 := by
        unfold sl
        rw [List.take_of_length_le (by omega)]
        rw [show (c.en + 2).toNat = P0.length + 2 by omega]
        rw [List.drop_append]
      rw [htxt]

end WS

namespace WS

/-- A connection state just after a Close header (length 3) was parsed:
payload `[0x03, 0xEA, 0x78]` (status 1002, reason "x") fully buffered. -/
def c2Conn : Conn FakeConn :=
  { mkReader [] 32 with rbuf := [0x88, 3, 3, 0xEA, 120], en := 5, i := 2, st := 0, more := 3 }

/-- C2 witness: the classification theorem applied to a concrete buffered
close frame, evaluated. -/
theorem c2_processClose_classification_witness :
    c2Conn.key = [0, 0, 0, 0] ∧ (0 : Int) ≤ c2Conn.i ∧
      c2Conn.en ≤ (c2Conn.rbuf.length : Int) ∧
      c2Conn.i + min c2Conn.more 128 ≤ c2Conn.en ∧ 2 ≤ 2 ∧
      c2Conn.processClose FakeTr 2 =
        some (some (.statusText 1002 [120]),
          { c2Conn with readerClosed := true, i := 5, more := 0, rbuf := [0x88, 3, 3, 0xEA, 120, 3, 0xEA, 120] }) := by
  refine ⟨rfl, by decide, by decide, by decide, by decide, ?_⟩
  exact ((c2_processClose_classification FakeTr 2 c2Conn rfl (by decide)
    (by decide) (by decide) (by decide)).2.2 (by decide)).trans (by decide)

end WS

namespace WS

/-- Reader over a scripted transport whose first read yields one header
byte (no error) and whose second read yields zero bytes with EOF. -/
def c5Conn : Conn ScriptT :=
  ⟨⟨[([0x82], none), ([], some .eof)], []⟩, 0, false, false, [], List.replicate 32 0, 0, 0, 0, ⟨0, 0⟩, [0, 0, 0, 0], 0, 0⟩

/-- C5 counterexample: within one `readFrameHeader` call, the first
transport read obtains one byte (leaving `end = 1` and consuming the first
script entry), the second returns zero bytes with EOF — and the call
surfaces `io.EOF` to the caller, even though bytes were obtained in a
prior iteration of the same call.  The claim says such an EOF is
swallowed; the code swallows an EOF only when the very read that returned
it also returned bytes. -/
theorem c5_counterexample :
    (c5Conn.readFrameHeader ScriptTr 10).map
        (fun r => (r.1, r.2.1, r.2.2.en, r.2.2.tr.script)) =
      some ((0, false, 0), some .eof, 1, []) := by
  rfl

/-- C5 (amended): an EOF from the transport is swallowed iff the very
transport read that returned it also returned at least one byte.  In the
header loop (`readFrameHeader`): a read returning `n ≠ 0` bytes together
with EOF continues the loop; a read returning zero bytes with EOF makes
the call return EOF — regardless of bytes obtained in earlier iterations.
In the payload loop (`appendFrame`, refill branch): a read returning
bytes with EOF continues; a zero-byte EOF returns the partial data
together with `io.EOF` (which `Read` then maps to a silent return). -/
theorem c5_eof_swallow_iff_nonzero_read {τ : Type} (T : Tr τ) (fuel : Nat)
    (c c2 : Conn τ) (n : Int) (b p : List Nat) (h : HeaderBits) (l ip : Int)
    (key2 : List Nat) (k : Nat) (more : Int) :
    (gslice c.rbuf 0 c.en = some b →
      c.parseFrameHeader b c.st = some (h, l, ip, key2) →
      ¬ ip > 0 →
      c.read T = some (n, some .eof, c2) →
      (n ≠ 0 → Conn.rfhLoop T (fuel + 1) c = Conn.rfhLoop T fuel c2) ∧
      (n = 0 →
        Conn.rfhLoop T (fuel + 1) c = some ((0, false, l), some .eof, c2))) ∧
    (¬ more = 0 → ¬ c.i < c.en → ¬ more ≥ (c.rbuf.length : Int) - 0x10 →
      c.read T = some (n, some .eof, c2) →
      (n ≠ 0 →
        Conn.afLoop T (fuel + 1) c p k more = Conn.afLoop T fuel c2 p k more) ∧
      (n = 0 →
        Conn.afLoop T (fuel + 1) c p k more =
          some (p.take k, some .eof, c2))) := by
  constructor
  · intro hb hp hip hr
    constructor <;> intro hn <;>
      simp only [Conn.rfhLoop, hb, hp, if_neg hip, hr]
    · rw [if_pos ⟨hn, rfl⟩]
    · rw [if_neg (by simp [hn]), if_pos (by simp)]
  · intro hm hlt hbig hr
    constructor <;> intro hn <;>
      simp only [Conn.afLoop, if_neg hm, if_neg hlt, if_neg hbig, hr]
    · rw [if_neg (by simp [hn, isEOF])]
    · rw [if_pos (Or.inr hn)]

end WS

namespace WS

/-- A reader whose transport immediately returns a zero-byte EOF. -/
def c5Wc : Conn ScriptT :=
  ⟨⟨[([], some .eof)], []⟩, 0, false, false, [], List.replicate 32 0, 0, 0, 0, ⟨0, 0⟩, [0, 0, 0, 0], 0, 0⟩

/-- `c5Wc` after its single transport read. -/
def c5Wc2 : Conn ScriptT := { c5Wc with tr := ⟨[], []⟩ }

/-- C5 witness: the swallow/surface rule applied to `c5Wc` — the
zero-byte EOF is surfaced both by the header loop and by the payload
refill branch. -/
theorem c5_eof_swallow_iff_nonzero_read_witness :
    Conn.rfhLoop ScriptTr 3 c5Wc = some ((0, false, 0), some .eof, c5Wc2) ∧
    Conn.afLoop ScriptTr 3 c5Wc [] 0 5 = some ([], some .eof, c5Wc2) := by
  have H := c5_eof_swallow_iff_nonzero_read ScriptTr 2 c5Wc c5Wc2 0 [] []
    ⟨0, 0⟩ 0 (-1) [0, 0, 0, 0] 0 5
  exact ⟨(H.1 rfl rfl (by decide) rfl).2 rfl,
    (H.2 (by decide) (by decide) (by decide) rfl).2 rfl⟩

end WS

namespace WS

theorem land127 (n : Nat) (h : n ≤ 125) : n &&& 127 = n := by
  have h1 := Nat.and_pow_two_sub_one_eq_mod n 7
  norm_num at h1
  rw [h1, Nat.mod_eq_of_lt (by omega)]

theorem land128 (n : Nat) (h : n < 128) : n &&& 128 = 0 := by
  have h1 := Nat.and_two_pow n 7
  have h2 : n.testBit 7 = false := Nat.testBit_eq_false_of_lt (by norm_num; omega)
  rw [h2] at h1
  norm_num at h1 ⊢
  omega

theorem gidx_concat (A rest : List Nat) (b : Nat) (j : Int)
    (hj : j = (A.length : Int)) : gidx (A ++ b :: rest) j = some b := by
  subst hj
  unfold gidx
  rw [if_pos ⟨by positivity, by simp⟩]
  rw [Int.toNat_natCast]
  have := getD_concat A [b] rest 0 (by norm_num)
  simpa using this

theorem gset_concat (A rest : List Nat) (b v : Nat) (j : Int)
    (hj : j = (A.length : Int)) :
    gset (A ++ b :: rest) j v = some (A ++ v :: rest) := by
  subst hj
  unfold gset
  rw [if_pos ⟨by positivity, by simp⟩, Int.toNat_natCast,
    List.set_append_right _ _ (le_refl _)]
  simp

theorem sl_concat (A mid rest : List Nat) (a e : Int)
    (ha : a = (A.length : Int)) (he : e = (A.length : Int) + (mid.length : Int)) :
    sl (A ++ mid ++ rest) a e = mid := by
  subst ha he
  unfold sl
  rw [show ((A.length : Int) + (mid.length : Int)).toNat = A.length + mid.length
      by omega,
    Int.toNat_natCast, take_len_append, List.drop_left]

theorem gslice_concat (A mid rest : List Nat) (a e : Int)
    (ha : a = (A.length : Int)) (he : e = (A.length : Int) + (mid.length : Int)) :
    gslice (A ++ mid ++ rest) a e = some mid := by
  rw [gslice_eq_sl (A ++ mid ++ rest) a e (by omega) (by omega)
      (by simp only [List.length_append]; omega),
    sl_concat A mid rest a e ha he]

theorem gslice_full (b : List Nat) (a e : Int) (ha : a = 0)
    (he : e = (b.length : Int)) : gslice b a e = some b := by
  subst ha he
  unfold gslice
  rw [if_pos ⟨le_refl _, by omega, le_refl _⟩]
  simp

/-- `parseFrameHeader` on a buffer holding a complete unmasked short
header `[b0, b1]` (7-bit length form, `b1 ≤ 125`) at position `st`:
success, with length `b1` and the index right after the two octets. -/
theorem parseFrameHeader_at {τ : Type} (c : Conn τ) (b pre post : List Nat)
    (b0 b1 : Nat) (hb : b = pre ++ b0 :: b1 :: post)
    (hst : c.st = (pre.length : Int)) (h1 : b1 ≤ 125) :
    c.parseFrameHeader b c.st =
      some (⟨b0, b1⟩, (b1 : Int), (pre.length : Int) + 2, c.key) := by
  rw [hst, hb]
  unfold Conn.parseFrameHeader
  rw [if_neg (by simp; omega), if_neg (by omega), Int.toNat_natCast]
  have g0 : (pre ++ b0 :: b1 :: post).getD pre.length 0 = b0 := by
    have := getD_concat pre [b0, b1] post 0 (by norm_num)
    simpa using this
  have g1 : (pre ++ b0 :: b1 :: post).getD (pre.length + 1) 0 = b1 := by
    have := getD_concat pre [b0, b1] post 1 (by norm_num)
    simpa using this
  have hl7 : (HeaderBits.mk b0 b1).len7 = b1 := land127 b1 h1
  have hmask : (HeaderBits.mk b0 b1).Masked = false := by
    simp [HeaderBits.Masked, land128 b1 (by omega)]
  simp only [g0, g1]
  rw [ParseLen_len7 (HeaderBits.mk b0 b1) c.rbuf ((pre.length : Int) + 2)
    (by rw [hl7]; exact h1)]
  dsimp only
  rw [hl7, if_neg (by omega), hmask]
  simp

/-- One successful iteration of the header parse loop: the buffered slice
`rbuf[:end]` holds a complete unmasked short header at `st`. -/
theorem rfhLoop_parse {τ : Type} (T : Tr τ) (fuel : Nat) (c : Conn τ)
    (pre post : List Nat) (b0 b1 : Nat)
    (hen : c.en = (c.rbuf.length : Int))
    (hbuf : c.rbuf = pre ++ b0 :: b1 :: post)
    (hst : c.st = (pre.length : Int)) (h1 : b1 ≤ 125) :
    Conn.rfhLoop T (fuel + 1) c =
      some (((b0 &&& 0xf), (decide (b0 &&& 0x80 ≠ 0)), (b1 : Int)), none,
        { c with header := ⟨b0, b1⟩, start := (pre.length : Int) + 2, more := (b1 : Int), i := (pre.length : Int) + 2 }) := by
  simp only [Conn.rfhLoop]
  rw [gslice_full c.rbuf 0 c.en rfl hen]
  dsimp only
  rw [parseFrameHeader_at c c.rbuf pre post b0 b1 hbuf hst h1]
  dsimp only
  rw [if_pos (by omega)]
  rfl

/-- `readFrameHeader` on an open reader: skip the unread remainder of the
current frame and enter the parse loop with `st = i = old i + more`. -/
theorem readFrameHeader_eq {τ : Type} (T : Tr τ) (fuel : Nat) (c : Conn τ)
    (h : c.readerClosed = false) :
    c.readFrameHeader T fuel =
      Conn.rfhLoop T fuel { c with st := c.i + c.more, i := c.i + c.more } := by
  unfold Conn.readFrameHeader Conn.rfhSkip
  rw [if_neg (by simp [h])]
  by_cases hm : c.more = 0
  · rw [if_neg (by simp [hm])]
    congr 1
    obtain ⟨tr, cl, wc, rc, wb, rb, st, i, en, hd, ky, sa, mo⟩ := c
    simp only at hm
    simp [hm]
  · rw [if_pos hm]

end WS

namespace WS

theorem ScriptTr_wr (t : ScriptT) (p : List Nat) :
    Tr.wr ScriptTr t p = ((p.length : Int), none, ⟨t.script, t.out ++ p⟩) :=
  rfl

/-- C8: ping/pong transparency.  With a Ping frame (payload `pp`,
`|pp| ≤ 125`, unmasked) buffered between the already-consumed prefix
`pre` and a final Binary data frame (payload `dp`), a single `Read`:
(1) delivers exactly the data payload `dp` with no error, (2) rewrites
the Ping's opcode nibble to Pong in place in the read buffer, and
(3) writes the echoed Pong — rewritten header plus the byte-identical
ping payload — to the transport before the data frame is returned; the
script is untouched (no transport reads are issued). -/
theorem c8_ping_pong_transparency (pre pp dp out : List Nat)
    (scr : List (List Nat × Option GErr)) (hdrFuel : Nat)
    (hpp : pp.length ≤ 125) (hdp : dp.length ≤ 125) (hf : 2 ≤ hdrFuel) :
    Conn.Read ScriptTr 2 hdrFuel
      ⟨⟨scr, out⟩, 0, false, false, [],
        pre ++ 0x89 :: pp.length :: (pp ++ 0x82 :: dp.length :: dp),
        (pre.length : Int), (pre.length : Int),
        ((pre ++ 0x89 :: pp.length :: (pp ++ 0x82 :: dp.length :: dp)).length : Int),
        ⟨0, 0⟩, [0, 0, 0, 0], 0, 0⟩ dp.length =
      some (dp, none,
        ⟨⟨scr, out ++ 0x8A :: pp.length :: pp⟩, 0, false, false, [],
          pre ++ (0x8A :: pp.length :: pp) ++ (0x82 :: dp.length :: dp),
          (pre.length : Int) + 2 + pp.length,
          (pre.length : Int) + 4 + pp.length + dp.length,
          (pre.length : Int) + 4 + pp.length + dp.length,
          ⟨0x82, dp.length⟩, [0, 0, 0, 0],
          (pre.length : Int) + 4 + pp.length, 0⟩) := by
  obtain ⟨k, rfl⟩ : ∃ k, hdrFuel = k + 1 := ⟨hdrFuel - 1, by omega⟩
  rw [show (2 : Nat) = 0 + 1 + 1 from rfl]
  simp only [Conn.Read, Conn.readDataFrameHeader]
  rw [if_neg (by simp)]
  simp only [Conn.rdfhLoop]
  rw [readFrameHeader_eq ScriptTr (k + 1) _ rfl]
  rw [rfhLoop_parse ScriptTr k _ pre (pp ++ 0x82 :: dp.length :: dp) 0x89
    pp.length (by simp) (by simp) (by simp) hpp]
  dsimp only
  rw [if_neg (by decide), if_pos (by decide)]
  simp only [Conn.processPing]
  rw [gidx_concat pre (pp.length :: (pp ++ 0x82 :: dp.length :: dp)) 0x89 _
    (by simp)]
  dsimp only
  rw [show 0x89 >>> 4 <<< 4 ||| FramePong = 0x8A from by decide]
  rw [gset_concat pre (pp.length :: (pp ++ 0x82 :: dp.length :: dp)) 0x89 0x8A _
    (by simp)]
  dsimp only
  rw [show pre ++ 0x8A :: pp.length :: (pp ++ 0x82 :: dp.length :: dp) =
      pre ++ (0x8A :: pp.length :: pp) ++ (0x82 :: dp.length :: dp) from by
    simp]
  rw [gslice_concat pre (0x8A :: pp.length :: pp) (0x82 :: dp.length :: dp)
    _ _ (by simp) (by simp; omega)]
  simp only [ScriptTr_wr]
  rw [readFrameHeader_eq ScriptTr (k + 1) _ rfl]
  rw [rfhLoop_parse ScriptTr k _ (pre ++ (0x8A :: pp.length :: pp)) dp 0x82
    dp.length (by simp) (by simp) (by simp; omega) hdp]
  dsimp only
  rw [if_pos (by decide)]
  dsimp only
  rcases hdnil : dp with _ | ⟨d0, dtl⟩
  · simp only [Conn.appendFrame]
    rw [if_pos (by simp)]
    dsimp only
    rw [if_pos (show isEOF (some GErr.eof) = true from rfl)]
    simp only [Option.some.injEq, Prod.mk.injEq, Conn.mk.injEq,
      List.length_append, List.length_cons, List.length_nil, and_true,
      true_and]
    omega
  · rw [show pre ++ (0x8A :: pp.length :: pp) ++
        (0x82 :: (d0 :: dtl).length :: (d0 :: dtl)) =
        (pre ++ (0x8A :: pp.length :: pp) ++ [0x82, (d0 :: dtl).length]) ++
          (d0 :: dtl) ++ [] from by simp]
    rw [appendFrame_buffered ScriptTr (k + 1) _ [] ((d0 :: dtl).length : Int)
      (by positivity) (by simp; omega) (by simp) (by simp) hf]
    simp only [min_self, sub_self]
    rw [sl_concat (pre ++ (0x8A :: pp.length :: pp) ++ [0x82, (d0 :: dtl).length])
      (d0 :: dtl) [] _ _ (by simp; omega) (by simp; omega)]
    rw [maskBuf_zero_key]
    simp only [csel, show ((0 : Int) == 0) = true from rfl, if_true]
    rw [if_pos (show isEOF (some GErr.eof) = true from rfl)]
    simp only [Option.some.injEq, Prod.mk.injEq, Conn.mk.injEq,
      List.length_append, List.length_cons, List.length_nil, List.nil_append,
      List.append_nil, List.append_assoc, List.cons_append, and_true,
      true_and]
    norm_num
    omega

end WS

namespace WS

/-- C8 witness: the transparency theorem at ping payload `[1, 2]` and data
payload `[7]`. -/
theorem c8_ping_pong_transparency_witness :
    ([1, 2] : List Nat).length ≤ 125 ∧ ([7] : List Nat).length ≤ 125 ∧ 2 ≤ 2 ∧
    Conn.Read ScriptTr 2 2
      ⟨⟨[], []⟩, 0, false, false, [],
        [] ++ 0x89 :: [1, 2].length :: ([1, 2] ++ 0x82 :: [7].length :: [7]),
        ((([] : List Nat).length : Int)), ((([] : List Nat).length : Int)),
        ((([] ++ 0x89 :: [1, 2].length :: ([1, 2] ++ 0x82 :: [7].length :: [7]) : List Nat).length : Int)),
        ⟨0, 0⟩, [0, 0, 0, 0], 0, 0⟩ [7].length =
      some ([7], none,
        ⟨⟨[], [] ++ 0x8A :: [1, 2].length :: [1, 2]⟩, 0, false, false, [],
          [] ++ (0x8A :: [1, 2].length :: [1, 2]) ++ (0x82 :: [7].length :: [7]),
          ((([] : List Nat).length : Int)) + 2 + [1, 2].length,
          ((([] : List Nat).length : Int)) + 4 + [1, 2].length + [7].length,
          ((([] : List Nat).length : Int)) + 4 + [1, 2].length + [7].length,
          ⟨0x82, [7].length⟩, [0, 0, 0, 0],
          ((([] : List Nat).length : Int)) + 4 + [1, 2].length, 0⟩) :=
  ⟨by decide, by decide, by decide,
    c8_ping_pong_transparency [] [1, 2] [7] [] [] 2 (by decide) (by decide)
      (by decide)⟩

end WS

namespace WS

theorem ParseLen_lb (f : HeaderBits) (b : List Nat) (s l i : Int)
    (h : f.ParseLen b s = some (l, i)) (hi : ¬ i < 0) : s ≤ i := by
  simp only [HeaderBits.ParseLen] at h
  split at h
  · simp only [Option.some.injEq, Prod.mk.injEq] at h
    omega
  · split at h
    · split at h
      · simp only [Option.some.injEq, Prod.mk.injEq] at h
        omega
      · split at h
        · exact absurd h (by simp)
        · simp only [Option.some.injEq, Prod.mk.injEq] at h
          omega
    · split at h
      · split at h
        · simp only [Option.some.injEq, Prod.mk.injEq] at h
          omega
        · split at h
          · exact absurd h (by simp)
          · split at h
            · exact absurd h (by simp)
            · simp only [Option.some.injEq, Prod.mk.injEq] at h
              omega
      · exact absurd h (by simp)

theorem ReadMaskingKey_lb (b : List Nat) (s i : Int) (k : Option (List Nat))
    (h : HeaderBits.ReadMaskingKey b s = some (i, k)) (hi : ¬ i < 0) :
    i = s + 4 := by
  unfold HeaderBits.ReadMaskingKey at h
  split at h
  · simp only [Option.some.injEq, Prod.mk.injEq] at h
    omega
  · split at h
    · exact absurd h (by simp)
    · simp only [Option.some.injEq, Prod.mk.injEq] at h
      omega

theorem parseFrameHeader_pos {τ : Type} (c : Conn τ) (b : List Nat)
    (h : HeaderBits) (l ip : Int) (key2 : List Nat)
    (hp : c.parseFrameHeader b c.st = some (h, l, ip, key2)) (hip : ip > 0) :
    0 ≤ c.st ∧ c.st + 2 ≤ ip := by
  simp only [Conn.parseFrameHeader] at hp
  split at hp
  · simp only [Option.some.injEq, Prod.mk.injEq] at hp
    omega
  · split at hp
    · exact absurd hp (by simp)
    · rename_i h2 h3
      rcases hP : HeaderBits.ParseLen ⟨b.getD c.st.toNat 0, b.getD (c.st.toNat + 1) 0⟩ c.rbuf (c.st + 2) with _ | ⟨l0, i2⟩ <;>
        simp only [hP] at hp
      · exact absurd hp (by simp)
      · split at hp
        · simp only [Option.some.injEq, Prod.mk.injEq] at hp
          omega
        · rename_i h4
          have hi2 := ParseLen_lb _ _ _ _ _ hP h4
          split at hp
          · rcases hK : HeaderBits.ReadMaskingKey b i2 with _ | ⟨i3, k⟩ <;>
              simp only [hK] at hp
            · exact absurd hp (by simp)
            · split at hp
              · simp only [Option.some.injEq, Prod.mk.injEq] at hp
                omega
              · rename_i h5
                have hk4 := ReadMaskingKey_lb _ _ _ _ hK h5
                obtain ⟨-, -, hi3, -⟩ := hp
                omega
          · obtain ⟨-, -, hi3, -⟩ := hp
            omega

end WS

namespace WS

theorem readClamp_en_nonneg {τ : Type} (c : Conn τ) : 0 ≤ (c.readClamp).en := by
  unfold Conn.readClamp
  split
  · simp
  · omega

theorem read_en_bounds {τ : Type} (T : Tr τ) (c c2 : Conn τ) (n : Int)
    (e : Option GErr) (h : c.read T = some (n, e, c2)) :
    0 ≤ c2.en ∧ c2.en ≤ (c2.rbuf.length : Int) := by
  unfold Conn.read at h
  rw [Option.bind_eq_some] at h
  obtain ⟨c3, hc, h⟩ := h
  split at h
  · exact absurd h (by simp)
  · rename_i hg
    rcases hr : T.rd (c3.readClamp).tr
        ((c3.readClamp).rbuf.length - (c3.readClamp).en.toNat) with ⟨bs, e3, t3⟩
    simp only [hr] at h
    simp only [Option.some.injEq, Prod.mk.injEq] at h
    obtain ⟨-, -, rfl⟩ := h
    have hle := T.rd_le (c3.readClamp).tr
      ((c3.readClamp).rbuf.length - (c3.readClamp).en.toNat)
    rw [hr] at hle
    have h0 := readClamp_en_nonneg c3
    constructor
    · dsimp only
      omega
    · dsimp only
      simp only [List.length_append, List.length_take, List.length_drop]
      omega

theorem rfhLoop_st_i {τ : Type} (T : Tr τ) (fuel : Nat) :
    ∀ (c : Conn τ) r c2, Conn.rfhLoop T fuel c = some (r, none, c2) →
      0 ≤ c2.st ∧ c2.st + 2 ≤ c2.i := by
  induction fuel with
  | zero =>
    intro c r c2 h
    exact absurd h (by simp [Conn.rfhLoop])
  | succ fuel ih =>
    intro c r c2 h
    simp only [Conn.rfhLoop] at h
    rcases hg : gslice c.rbuf 0 c.en with _ | b <;> simp only [hg] at h
    · exact absurd h (by simp)
    rcases hp : c.parseFrameHeader b c.st with _ | ⟨hh, l, ip, key2⟩ <;>
      simp only [hp] at h
    · exact absurd h (by simp)
    split at h
    · rename_i hip
      simp only [Option.some.injEq, Prod.mk.injEq] at h
      obtain ⟨-, -, rfl⟩ := h
      have hb := parseFrameHeader_pos c b hh l ip key2 hp hip
      dsimp only
      exact hb
    · rcases hr : c.read T with _ | ⟨nr, e3, c3⟩ <;> simp only [hr] at h
      · exact absurd h (by simp)
      split at h
      · exact ih _ _ _ h
      · split at h
        · rename_i hcond
          simp only [Option.some.injEq, Prod.mk.injEq] at h
          obtain ⟨-, he, -⟩ := h
          exact absurd he hcond
        · exact ih _ _ _ h

end WS

namespace WS

/-- C3 counterexample: the claimed cursor invariant `0 ≤ st ≤ i ≤ end ≤
len(rbuf)` is violated at observable moments.  First run (read buffer 32,
frame `[0x82, 40]` + 40 payload bytes delivered in one Read): after Read
returns, `st = −32 < 0` — mid-frame compaction subtracts the offset from
`st` below zero.  Second run (frame `[0x82, 48]` + 48 payload bytes):
after Read returns, `i = 50 > end = 32` — the direct-read path advances
`i` past `end`. -/
theorem c3_counterexample :
    ((mkReader ([0x82, 40] ++ List.replicate 40 5) 32).Read FakeTr 99 99
          40).map (fun r => (r.2.2.st, r.2.2.i, r.2.2.en)) =
        some (-32, 10, 10) ∧
    ((mkReader ([0x82, 48] ++ List.replicate 48 5) 32).Read FakeTr 99 99
          48).map (fun r => (r.2.2.st, r.2.2.i, r.2.2.en)) =
        some (0, 50, 32) := by
  constructor
  · decide
  · decide

/-- C3 (amended): what survives of the cursor invariant.  Every
successful internal refill (`Conn.read`) re-establishes
`0 ≤ end ≤ len(rbuf)` — unconditionally, for any starting state.  Every
successful header parse (`rfhLoop` returning without error) leaves
`0 ≤ st` and `st + 2 ≤ i`.  The remaining inequalities of the claimed
chain (`0 ≤ st` mid-frame, and `i ≤ end`) do not hold at all observable
moments (see the counterexample). -/
theorem c3_cursor_bounds {τ : Type} (T : Tr τ) (fuel : Nat) (c c2 : Conn τ)
    (n : Int) (e : Option GErr) (r : Nat × Bool × Int) :
    (c.read T = some (n, e, c2) →
      0 ≤ c2.en ∧ c2.en ≤ (c2.rbuf.length : Int)) ∧
    (Conn.rfhLoop T fuel c = some (r, none, c2) →
      0 ≤ c2.st ∧ c2.st + 2 ≤ c2.i) :=
  ⟨fun h => read_en_bounds T c c2 n e h,
   fun h => rfhLoop_st_i T fuel c r c2 h⟩

/-- Post-state of the refill in the C3 witness. -/
def c3wA2 : Conn FakeConn :=
  { mkReader [0x82, 2, 7, 8] 32 with tr := ⟨[0x82, 2, 7, 8], 4⟩, rbuf := [0x82, 2, 7, 8] ++ List.replicate 28 0, en := 4 }

/-- Header-parse start state in the C3 witness. -/
def c3wB : Conn FakeConn :=
  { mkReader [] 32 with rbuf := [0x82, 2, 7, 8] ++ List.replicate 28 0, en := 4 }

/-- Post-state of the header parse in the C3 witness. -/
def c3wB2 : Conn FakeConn :=
  { c3wB with header := ⟨0x82, 2⟩, start := 2, more := 2, i := 2 }

/-- C3 witness: the amended bounds applied to a concrete refill and a
concrete header parse. -/
theorem c3_cursor_bounds_witness :
    ((mkReader [0x82, 2, 7, 8] 32).read FakeTr =
        some (4, some .eof, c3wA2) ∧
      0 ≤ c3wA2.en ∧ c3wA2.en ≤ (c3wA2.rbuf.length : Int)) ∧
    (Conn.rfhLoop FakeTr 1 c3wB = some ((2, true, 2), none, c3wB2) ∧
      0 ≤ c3wB2.st ∧ c3wB2.st + 2 ≤ c3wB2.i) := by
  have hA : (mkReader [0x82, 2, 7, 8] 32).read FakeTr =
      some (4, some .eof, c3wA2) := by decide
  have hB : Conn.rfhLoop FakeTr 1 c3wB = some ((2, true, 2), none, c3wB2) := by
    decide
  have H1 := (c3_cursor_bounds FakeTr 1 (mkReader [0x82, 2, 7, 8] 32) c3wA2 4
    (some .eof) (2, true, 2)).1 hA
  have H2 := (c3_cursor_bounds FakeTr 1 c3wB c3wB2 4 none (2, true, 2)).2 hB
  exact ⟨⟨hA, H1⟩, ⟨hB, H2⟩⟩

end WS

namespace WS

/-- The wire image of one unmasked final Binary frame, as the writer's
`Write` (= `writeFrame(p, FrameBinary, true)`) emits it on a server-side
connection. -/
def encFrame (m : List Nat) : List Nat :=
  frameBytes 0 FrameBinary true [0, 0, 0, 0] m

/-- Concatenated wire image of a list of messages. -/
def encs : List (List Nat) → List Nat
  | [] => []
  | m :: tl => encFrame m ++ encs tl

theorem encFrame_eq (m : List Nat) :
    encFrame m = 0x82 :: l7val m.length :: (lenBytes m.length ++ m) := by
  unfold encFrame frameBytes
  norm_num [csel, FrameBinary, opcodeMask, finbit, maskedBit,
    show 2 &&& 15 ||| 128 = 130 from by decide]

/-- The reader-side invariant tying a connection state to the remaining
byte stream: the buffered slice `rbuf[i:end]` followed by the unread
transport bytes is exactly `stream`; the buffer is `cbuf` bytes, the key
is zero (server side), and after every fill either the buffer is full,
or the wire is exhausted, or the buffered slice is empty. -/
def ReaderInv (cbuf : Nat) (c : Conn FakeConn) (stream : List Nat) : Prop :=
  c.rbuf.length = cbuf ∧ c.key = [0, 0, 0, 0] ∧ c.readerClosed = false ∧
  0 ≤ c.i ∧ 0 ≤ c.en ∧ c.en ≤ (cbuf : Int) ∧
  c.tr.r ≤ c.tr.b.length ∧
  sl c.rbuf c.i c.en ++ c.tr.b.drop c.tr.r = stream ∧
  (c.en = (cbuf : Int) ∨ c.tr.b.length ≤ c.tr.r ∨ c.en ≤ c.i)

/-- The fuzz harness's drain loop: `Read` into `chunk`-byte caller
buffers, accumulating the returned bytes, until a read reports EOF; any
other error is a failure (`none`). -/
def drainLoop : Nat → Nat → Conn FakeConn → Nat → List Nat →
    Option (List Nat × Conn FakeConn)
  | 0, _, _, _, _ => none
  | fuel + 1, hdrFuel, c, chunk, acc =>
    match c.Read FakeTr 2 hdrFuel chunk with
    | none => none
    | some (res, some .eof, c2) => some (acc ++ res, c2)
    | some (_, some _, _) => none
    | some (res, none, c2) => drainLoop fuel hdrFuel c2 chunk (acc ++ res)

theorem ParseLen_ext16' (f : HeaderBits) (b pre rest : List Nat) (L : Nat)
    (s : Int) (h7 : f.len7 = 126) (hL : L < 2 ^ 16)
    (hb : b = pre ++ (be16app L ++ rest)) (hs : s = (pre.length : Int)) :
    f.ParseLen b s = some ((L : Int), s + 2) := by
  subst hb hs
  exact ParseLen_ext16 f pre rest L h7 hL

theorem ParseLen_ext64' (f : HeaderBits) (b pre rest : List Nat) (L : Nat)
    (s : Int) (h7 : f.len7 = 127) (hL : L < 2 ^ 63)
    (hb : b = pre ++ (be64app L ++ rest)) (hs : s = (pre.length : Int)) :
    f.ParseLen b s = some ((L : Int), s + 8) := by
  subst hb hs
  exact ParseLen_ext64 f pre rest L h7 hL

theorem l7val_le125 (l : Nat) (h : l ≤ 125) :
    l7val l = l ∧ lenBytes l = [] := by
  unfold l7val lenBytes maxLen7
  norm_num [h]

theorem l7val_ext16 (l : Nat) (h1 : 126 ≤ l) (h2 : l ≤ 65535) :
    l7val l = 126 ∧ lenBytes l = be16app l := by
  unfold l7val lenBytes maxLen7 maxLen16 len16
  rw [if_neg (by omega), if_pos (by omega), if_neg (by omega),
    if_pos (by omega)]
  norm_num

theorem l7val_ext64 (l : Nat) (h1 : 65536 ≤ l) :
    l7val l = 127 ∧ lenBytes l = be64app l := by
  unfold l7val lenBytes maxLen7 maxLen16 len64
  rw [if_neg (by omega), if_neg (by omega), if_neg (by omega),
    if_neg (by omega)]
  norm_num

end WS

namespace WS

/-- `parseFrameHeader` on a buffer whose slice at `st` starts with the
encoder's header for a final Binary frame of payload length `l` (any of
the three length forms), with the extended-length bytes present in the
slice (the call reads them from the physical `rbuf`, of which the slice
is a prefix). -/
theorem parseFrameHeader_enc {τ : Type} (c : Conn τ) (b pre post rest2 : List Nat)
    (l : Nat) (hb : b = pre ++ (0x82 :: l7val l :: lenBytes l) ++ post)
    (hrb : c.rbuf = b ++ rest2) (hst : c.st = (pre.length : Int))
    (hl : l ≤ maxLen64) :
    c.parseFrameHeader b c.st =
      some (⟨0x82, l7val l⟩, (l : Int),
        (pre.length : Int) + 2 + ((lenBytes l).length : Int), c.key) := by
  subst hb
  rw [hst]
  unfold Conn.parseFrameHeader
  rw [if_neg (by simp; omega), if_neg (by omega), Int.toNat_natCast]
  have g0 : (pre ++ (0x82 :: l7val l :: lenBytes l) ++ post).getD pre.length 0 =
      0x82 := by
    have := getD_concat pre (0x82 :: l7val l :: lenBytes l) post 0 (by simp)
    simpa [List.append_assoc] using this
  have g1 : (pre ++ (0x82 :: l7val l :: lenBytes l) ++ post).getD
      (pre.length + 1) 0 = l7val l := by
    have := getD_concat pre (0x82 :: l7val l :: lenBytes l) post 1 (by simp)
    simpa [List.append_assoc] using this
  simp only [g0, g1]
  by_cases h125 : l ≤ 125
  · obtain ⟨hv, hlb⟩ := l7val_le125 l h125
    rw [hv, hlb]
    have hl7 : (HeaderBits.mk 0x82 l).len7 = l := land127 l h125
    rw [ParseLen_len7 (HeaderBits.mk 0x82 l) c.rbuf ((pre.length : Int) + 2)
      (by rw [hl7]; exact h125)]
    dsimp only
    rw [hl7, if_neg (by omega),
      show (HeaderBits.mk 0x82 l).Masked = false from by
        simp [HeaderBits.Masked, land128 l (by omega)]]
    simp
  · by_cases h16 : l ≤ 65535
    · obtain ⟨hv, hlb⟩ := l7val_ext16 l (by omega) h16
      rw [hv, hlb]
      rw [ParseLen_ext16' (HeaderBits.mk 0x82 126) c.rbuf
        (pre ++ [0x82, 126]) (post ++ rest2) l ((pre.length : Int) + 2)
        (by decide) (by omega)
        (by rw [hrb, hv, hlb]; simp [be16app]) (by simp)]
      dsimp only
      rw [if_neg (by omega),
        show (HeaderBits.mk 0x82 126).Masked = false from by decide]
      simp [be16app]
    · obtain ⟨hv, hlb⟩ := l7val_ext64 l (by omega)
      rw [hv, hlb]
      rw [ParseLen_ext64' (HeaderBits.mk 0x82 127) c.rbuf
        (pre ++ [0x82, 127]) (post ++ rest2) l ((pre.length : Int) + 2)
        (by decide) (by unfold maxLen64 at hl; omega)
        (by rw [hrb, hv, hlb]; simp [be64app]) (by simp)]
      dsimp only
      rw [if_neg (by omega),
        show (HeaderBits.mk 0x82 127).Masked = false from by decide]
      simp [be64app]

end WS

namespace WS

/-- One successful iteration of the header parse loop when the buffered
slice `rbuf[:end]` holds, from `st` on, the encoder's header for a final
Binary frame of length `l` (any length form). -/
theorem rfhLoop_enc {τ : Type} (T : Tr τ) (fuel : Nat) (c : Conn τ)
    (pre post : List Nat) (l : Nat)
    (h0 : 0 ≤ c.en) (h1 : c.en ≤ (c.rbuf.length : Int))
    (hb : sl c.rbuf 0 c.en = pre ++ (0x82 :: l7val l :: lenBytes l) ++ post)
    (hst : c.st = (pre.length : Int)) (hl : l ≤ maxLen64) :
    Conn.rfhLoop T (fuel + 1) c =
      some ((2, true, (l : Int)), none,
        { c with header := ⟨0x82, l7val l⟩, start := (pre.length : Int) + 2 + ((lenBytes l).length : Int), more := (l : Int), i := (pre.length : Int) + 2 + ((lenBytes l).length : Int) }) := by
  simp only [Conn.rfhLoop]
  rw [gslice_eq_sl c.rbuf 0 c.en (by omega) h0 h1]
  dsimp only
  rw [parseFrameHeader_enc c (sl c.rbuf 0 c.en) pre post
    (c.rbuf.drop c.en.toNat) l hb
    (by unfold sl; simp [List.take_append_drop]) hst hl]
  dsimp only
  rw [if_pos (by positivity)]
  rw [show (HeaderBits.mk 130 (l7val l)).Opcode' = 2 from by
      simp [HeaderBits.Opcode', show 130 &&& 15 = 2 from by decide],
    show (HeaderBits.mk 130 (l7val l)).Fin' = true from by
      simp [HeaderBits.Fin']]

end WS

namespace WS

theorem sl_nil (b : List Nat) (a e : Int) (h : e ≤ a) : sl b a e = [] := by
  unfold sl
  apply List.drop_eq_nil_of_le
  simp only [List.length_take]
  omega

theorem sl_add (b : List Nat) (a e k : Int) (ha : 0 ≤ a) (hk : 0 ≤ k) :
    sl b (a + k) e = (sl b a e).drop k.toNat := by
  unfold sl
  rw [List.drop_drop]
  congr 1
  omega

theorem readGrow_id {τ : Type} (c : Conn τ)
    (h : minReadBufSize ≤ c.rbuf.length) : c.readGrow = c := by
  unfold Conn.readGrow
  rw [if_neg (by omega)]

theorem readClamp_id {τ : Type} (c : Conn τ) (h : 0 ≤ c.en) :
    c.readClamp = c := by
  unfold Conn.readClamp
  rw [if_neg (by omega)]

theorem take_drop_cover (l : List Nat) (s : Nat) :
    l.take s ++ l.drop (l.take s).length = l := by
  rcases le_or_lt s l.length with h | h
  · rw [List.length_take, Nat.min_eq_left h, List.take_append_drop]
  · rw [List.take_of_length_le (by omega), List.drop_length,
      List.append_nil]

theorem take_append_of_ge (A B : List Nat) (k : Nat) :
    (A ++ B).take (A.length + k) = A ++ B.take k := by
  rw [List.take_append_eq_append_take, List.take_of_length_le (by omega),
    Nat.add_sub_cancel_left]

theorem FakeTr_rd (t : FakeConn) (s : Nat) :
    Tr.rd FakeTr t s = FakeConn.rd t s := rfl

end WS



namespace WS

theorem readClamp_eq {τ : Type} (c : Conn τ) :
    c.readClamp = { c with en := max c.en 0 } := by
  unfold Conn.readClamp
  obtain ⟨tr, cl, wc, rc, wb, rb, st, i, en, hd, ky, sa, mo⟩ := c
  dsimp only
  split <;> simp only [Conn.mk.injEq] <;> norm_num <;> omega

end WS

namespace WS

theorem take_min (l : List Nat) (s : Nat) :
    l.take (min s l.length) = l.take s := by
  rcases le_or_lt s l.length with h | h
  · rw [Nat.min_eq_left h]
  · rw [Nat.min_eq_right (by omega), List.take_length,
      List.take_of_length_le (by omega)]

theorem sl_zero (b : List Nat) (e : Int) : sl b 0 e = b.take e.toNat := by
  unfold sl
  simp

/-- Behaviour of one internal refill (`Conn.read` over the fuzz harness's
`FakeConn`) from any invariant state in which the compaction condition
`i ≥ end/2` holds: compaction slides the buffered slice to offset 0, the
fill appends as much of the remaining wire as fits, and afterwards the
buffer holds exactly `stream.take (min cbuf |stream|)`. -/
theorem read_inv (cbuf : Nat) (hcb : 32 ≤ cbuf) (c : Conn FakeConn)
    (stream : List Nat) (hInv : ReaderInv cbuf c stream)
    (hcomp : Int.tdiv c.en 2 ≤ c.i) :
    ∃ n e c2,
      c.read FakeTr = some (n, e, c2) ∧
      ReaderInv cbuf c2 stream ∧
      c2.st = c.st - c.i ∧ c2.i = 0 ∧ c2.more = c.more ∧
      c2.tr.b = c.tr.b ∧
      c2.en = ((min cbuf stream.length : Nat) : Int) ∧
      sl c2.rbuf 0 c2.en = stream.take (min cbuf stream.length) ∧
      (c.tr.b.length ≤ c.tr.r → n = 0 ∧ e = some .eof) ∧
      (c.tr.r < c.tr.b.length → 0 < n) ∧
      (e = none ∨ e = some .eof) := by
  obtain ⟨hlen, hkey, hrc, hi0, hen0, hencb, hrr, hstream, hfill⟩ := hInv
  have hgrow : c.readGrow = c :=
    readGrow_id c (by unfold minReadBufSize; omega)
  have hcomp2 : c.en / 2 ≤ c.i := by
    rw [Int.tdiv_eq_ediv hen0 (by omega)] at hcomp
    exact hcomp
  have hBlen : ((sl c.rbuf c.i c.en).length : Int) = max (c.en - c.i) 0 := by
    by_cases hie : c.i < c.en
    · rw [sl_length c.rbuf c.i c.en hi0 (by omega) (by omega)]
      omega
    · rw [sl_nil c.rbuf c.i c.en (by omega)]
      simp
      omega
  have hBfree : ((sl c.rbuf c.i c.en).length : Int) < cbuf := by omega
  obtain ⟨R', EN, hcompact, hEN, hR'len, hR'take⟩ :
      ∃ R' EN, (c.readGrow).readCompact =
          some { c with rbuf := R', st := c.st - c.i, i := c.i - c.i, en := EN, start := c.start - c.i } ∧
        max EN 0 = ((sl c.rbuf c.i c.en).length : Int) ∧
        R'.length = cbuf ∧
        R'.take (sl c.rbuf c.i c.en).length = sl c.rbuf c.i c.en := by
    by_cases hie : c.i < c.en
    · refine ⟨sl c.rbuf c.i c.en ++ c.rbuf.drop (c.en - c.i).toNat,
        c.en - c.i, ?_, by omega, ?_, ?_⟩
      · rw [hgrow]
        unfold Conn.readCompact
        rw [if_pos hcomp, if_pos hie,
          gslice_eq_sl c.rbuf c.i c.en hi0 (by omega) (by omega)]
        rfl
      · simp only [List.length_append, List.length_drop, hlen]
        omega
      · rw [List.take_append_of_le_length (le_refl _), List.take_length]
    · refine ⟨c.rbuf, c.en - c.i, ?_, ?_, hlen, ?_⟩
      · rw [hgrow]
        unfold Conn.readCompact
        rw [if_pos hcomp, if_neg hie]
        rfl
      · rw [sl_nil c.rbuf c.i c.en (by omega)]
        simp
        omega
      · rw [sl_nil c.rbuf c.i c.en (by omega)]
        simp
  unfold Conn.read
  rw [hcompact]
  simp only [Option.some_bind]
  rw [readClamp_eq]
  dsimp only
  rw [hEN, Int.toNat_natCast, hR'len, hR'take]
  simp only [FakeTr_rd]
  rw [if_neg (by omega)]
  simp only [FakeConn.rd]
  have hcl : ((c.tr.b.drop c.tr.r).take
        (cbuf - (sl c.rbuf c.i c.en).length)).length =
      min (cbuf - (sl c.rbuf c.i c.en).length) (c.tr.b.length - c.tr.r) := by
    simp
  have hslen : stream.length =
      (sl c.rbuf c.i c.en).length + (c.tr.b.length - c.tr.r) := by
    rw [← hstream]
    simp
  have hdd : c.tr.b.drop (c.tr.r + ((c.tr.b.drop c.tr.r).take
        (cbuf - (sl c.rbuf c.i c.en).length)).length) =
      (c.tr.b.drop c.tr.r).drop (((c.tr.b.drop c.tr.r).take
        (cbuf - (sl c.rbuf c.i c.en).length)).length) := by
    rw [List.drop_drop, Nat.add_comm]
  have htn : ((((sl c.rbuf c.i c.en).length : Int)) + (((c.tr.b.drop c.tr.r).take
        (cbuf - (sl c.rbuf c.i c.en).length)).length : Int)).toNat =
      (sl c.rbuf c.i c.en).length + ((c.tr.b.drop c.tr.r).take
        (cbuf - (sl c.rbuf c.i c.en).length)).length := by
    omega
  have hsl2 : ∀ X : List Nat,
      sl (sl c.rbuf c.i c.en ++ (c.tr.b.drop c.tr.r).take
          (cbuf - (sl c.rbuf c.i c.en).length) ++ X) 0
        (((sl c.rbuf c.i c.en).length : Int) + (((c.tr.b.drop c.tr.r).take
          (cbuf - (sl c.rbuf c.i c.en).length)).length : Int)) =
      sl c.rbuf c.i c.en ++ (c.tr.b.drop c.tr.r).take
        (cbuf - (sl c.rbuf c.i c.en).length) := by
    intro X
    rw [sl_zero, htn, take_len_append]
  refine ⟨_, _, _, rfl, ?_, rfl, by dsimp only; omega, rfl, rfl, ?_, ?_, ?_, ?_, ?_⟩
  · refine ⟨?_, hkey, hrc, by dsimp only; omega, by dsimp only; positivity, ?_, ?_, ?_, ?_⟩
    · dsimp only
      simp only [List.length_append, List.length_take, List.length_drop,
        hR'len]
      omega
    · dsimp only
      simp only [hcl]
      omega
    · dsimp only
      simp only [hcl]
      omega
    · dsimp only
      rw [show c.i - c.i = (0 : Int) from by omega, hsl2, ← hstream,
        List.append_assoc, hdd]
      rw [take_drop_cover]
    · dsimp only
      simp only [hcl]
      omega
  · dsimp only
    simp only [hcl]
    omega
  · dsimp only
    rw [hsl2, ← hstream,
      show min cbuf (sl c.rbuf c.i c.en ++ c.tr.b.drop c.tr.r).length =
        (sl c.rbuf c.i c.en).length + ((c.tr.b.drop c.tr.r).take
          (cbuf - (sl c.rbuf c.i c.en).length)).length from by
        simp only [hcl, List.length_append, List.length_drop]
        omega,
      take_append_of_ge]
    congr 1
    rw [List.length_take, take_min]
  · intro h
    refine ⟨by simp only [hcl]; omega, ?_⟩
    rw [if_pos (show c.tr.r + ((c.tr.b.drop c.tr.r).take
        (cbuf - (sl c.rbuf c.i c.en).length)).length = c.tr.b.length from by
      simp only [hcl]
      omega)]
  · intro h
    simp only [hcl]
    omega
  · by_cases hP : c.tr.r + ((c.tr.b.drop c.tr.r).take
        (cbuf - (sl c.rbuf c.i c.en).length)).length = c.tr.b.length
    · rw [if_pos hP]
      right
      rfl
    · rw [if_neg hP]
      left
      rfl

end WS

namespace WS

theorem parseFrameHeader_short {τ : Type} (c : Conn τ) (b : List Nat)
    (h : c.st + 2 > (b.length : Int)) :
    c.parseFrameHeader b c.st = some (⟨0, 0⟩, 0, -1, c.key) := by
  unfold Conn.parseFrameHeader
  rw [if_pos h]

theorem ParseLen_fail16 (f : HeaderBits) (b : List Nat) (st : Int)
    (h7 : f.len7 = 126) (h : st + 2 > (b.length : Int)) :
    f.ParseLen b st = some (126, -1) := by
  unfold HeaderBits.ParseLen
  simp only [h7]
  rw [if_neg (by omega), if_pos trivial, if_pos h]
  norm_num

theorem ParseLen_fail64 (f : HeaderBits) (b : List Nat) (st : Int)
    (h7 : f.len7 = 127) (h : st + 8 > (b.length : Int)) :
    f.ParseLen b st = some (127, -1) := by
  unfold HeaderBits.ParseLen
  simp only [h7]
  rw [if_neg (by omega), if_neg (by omega), if_pos trivial, if_pos h]
  norm_num

theorem sl_split (b : List Nat) (i en : Int) (h0 : 0 ≤ i) (h1 : i ≤ en) :
    sl b 0 en = sl b 0 i ++ sl b i en := by
  unfold sl
  simp only [Int.toNat_zero, List.drop_zero]
  conv_lhs => rw [← List.take_append_drop i.toNat (b.take en.toNat)]
  rw [List.take_take, Nat.min_eq_left (by omega)]

/-- A buffered base header whose extended-length bytes are cut off by the
PHYSICAL end of the read buffer: `ParseLen`'s bounds check (which is
against `len(c.rbuf)`, not `end`) fails, and the parse reports an
incomplete buffer. -/
theorem parseFrameHeader_hdrPartial {τ : Type} (c : Conn τ)
    (b P Q : List Nat) (l : Nat)
    (hb : b = P ++ (0x82 :: l7val l :: Q))
    (hst : c.st = (P.length : Int))
    (hQ : (Q.length : Int) < ((lenBytes l).length : Int))
    (hphys : (P.length : Int) + 2 + (lenBytes l).length >
      (c.rbuf.length : Int)) :
    c.parseFrameHeader b c.st = some (⟨0x82, l7val l⟩, 0, -1, c.key) := by
  subst hb
  rw [hst]
  unfold Conn.parseFrameHeader
  rw [if_neg (by simp; omega), if_neg (by omega), Int.toNat_natCast]
  have g0 : (P ++ (0x82 :: l7val l :: Q)).getD P.length 0 = 0x82 := by
    have := getD_concat P (0x82 :: l7val l :: Q) [] 0 (by simp)
    simpa using this
  have g1 : (P ++ (0x82 :: l7val l :: Q)).getD (P.length + 1) 0 = l7val l := by
    have := getD_concat P (0x82 :: l7val l :: Q) [] 1 (by simp)
    simpa using this
  simp only [g0, g1]
  by_cases h125 : l ≤ 125
  · exact absurd hQ (by rw [(l7val_le125 l h125).2]; simp)
  · by_cases h16 : l ≤ 65535
    · obtain ⟨hv, hlb⟩ := l7val_ext16 l (by omega) h16
      rw [hv] at g1 ⊢
      rw [hlb] at hphys
      rw [ParseLen_fail16 (HeaderBits.mk 0x82 126) c.rbuf
        ((P.length : Int) + 2) (by decide) (by simp [be16app] at hphys; omega)]
      dsimp only
      rw [if_pos (by omega)]
    · obtain ⟨hv, hlb⟩ := l7val_ext64 l (by omega)
      rw [hv] at g1 ⊢
      rw [hlb] at hphys
      rw [ParseLen_fail64 (HeaderBits.mk 0x82 127) c.rbuf
        ((P.length : Int) + 2) (by decide) (by simp [be64app] at hphys; omega)]
      dsimp only
      rw [if_pos (by omega)]

end WS

namespace WS

theorem lenBytes_le8 (l : Nat) : (lenBytes l).length ≤ 8 := by
  unfold lenBytes
  split
  · simp
  · split
    · simp [be16app]
    · simp [be64app]

theorem encFrame_len (m : List Nat) :
    (encFrame m).length = 2 + (lenBytes m.length).length + m.length := by
  rw [encFrame_eq]
  simp
  omega

theorem rfhLoop_step {τ : Type} (T : Tr τ) (fuel : Nat) (c : Conn τ)
    (b : List Nat) (H : HeaderBits) (L : Int) (n : Int) (e : Option GErr)
    (c2 : Conn τ)
    (hg : gslice c.rbuf 0 c.en = some b)
    (hp : c.parseFrameHeader b c.st = some (H, L, -1, c.key))
    (hr : c.read T = some (n, e, c2))
    (hcont : (n ≠ 0 ∧ isEOF e = true) ∨ e = none) :
    Conn.rfhLoop T (fuel + 1) c = Conn.rfhLoop T fuel c2 := by
  simp only [Conn.rfhLoop]
  rw [hg]
  dsimp only
  rw [hp]
  dsimp only
  rw [if_neg (by omega), hr]
  dsimp only
  rcases hcont with ⟨hn, he⟩ | he
  · rw [if_pos ⟨hn, he⟩]
  · subst he
    rw [if_neg (by simp [isEOF]), if_neg (by simp)]

/-- The header phase under the reader invariant: when the remaining
stream starts with an encoded frame, at most one parse failure and one
refill occur before the header is parsed, returning opcode Binary, FIN,
and the exact payload length, and re-establishing the invariant with the
header consumed. -/
theorem rfhLoop_inv (cbuf : Nat) (hcb : 32 ≤ cbuf) (fuel : Nat)
    (c : Conn FakeConn) (m rest : List Nat)
    (hInv : ReaderInv cbuf c (encFrame m ++ rest))
    (hst : c.st = c.i) (hm : m.length ≤ maxLen64) :
    ∃ c2, Conn.rfhLoop FakeTr (fuel + 2) c =
        some ((2, true, (m.length : Int)), none, c2) ∧
      ReaderInv cbuf c2 (m ++ rest) ∧ c2.more = (m.length : Int) := by
  obtain ⟨hlen, hkey, hrc, hi0, hen0, hencb, hrr, hstream, hfill⟩ := hInv
  have hlb8 : (lenBytes m.length).length ≤ 8 := lenBytes_le8 m.length
  have hencm : encFrame m ++ rest =
      (0x82 :: l7val m.length :: lenBytes m.length) ++ (m ++ rest) := by
    rw [encFrame_eq]
    simp
  have hBlen : ((sl c.rbuf c.i c.en).length : Int) = max (c.en - c.i) 0 := by
    by_cases hie : c.i < c.en
    · rw [sl_length c.rbuf c.i c.en hi0 (by omega) (by omega)]
      omega
    · rw [sl_nil c.rbuf c.i c.en (by omega)]
      simp
      omega
  by_cases hA : 2 + (lenBytes m.length).length ≤ (sl c.rbuf c.i c.en).length
  · -- the whole header is buffered: the first parse succeeds
    have hie : c.i < c.en := by
      by_contra hc
      rw [sl_nil c.rbuf c.i c.en (by omega)] at hA
      simp at hA
    have hPlen : ((sl c.rbuf 0 c.i).length : Int) = c.i := by
      have := sl_length c.rbuf 0 c.i (le_refl 0) hi0 (by omega)
      omega
    have hBval : sl c.rbuf c.i c.en =
        ((encFrame m ++ rest)).take (sl c.rbuf c.i c.en).length := by
      rw [← hstream, List.take_append_of_le_length (le_refl _),
        List.take_length]
    have hBdecomp : sl c.rbuf c.i c.en =
        (0x82 :: l7val m.length :: lenBytes m.length) ++
          (m ++ rest).take ((sl c.rbuf c.i c.en).length -
            (2 + (lenBytes m.length).length)) := by
      conv_lhs => rw [hBval, hencm]
      rw [List.take_append_eq_append_take,
        List.take_of_length_le (by simp; omega)]
      congr 2
      simp
      omega
    have hb : sl c.rbuf 0 c.en =
        sl c.rbuf 0 c.i ++
          (0x82 :: l7val m.length :: lenBytes m.length) ++
          (m ++ rest).take ((sl c.rbuf c.i c.en).length -
            (2 + (lenBytes m.length).length)) := by
      rw [sl_split c.rbuf c.i c.en hi0 (by omega), List.append_assoc,
        ← hBdecomp]
    refine ⟨_, rfhLoop_enc FakeTr (fuel + 1) c (sl c.rbuf 0 c.i) _ m.length
      hen0 (by omega) hb (by rw [hst, hPlen]) hm, ?_, rfl⟩
    refine ⟨hlen, hkey, hrc, by dsimp only; positivity, hen0, hencb, hrr,
      ?_, ?_⟩
    · dsimp only
      rw [hPlen]
      have hadd := sl_add c.rbuf c.i c.en
        (2 + ((lenBytes m.length).length : Int)) hi0 (by positivity)
      rw [show c.i + 2 + ((lenBytes m.length).length : Int) =
          c.i + (2 + ((lenBytes m.length).length : Int)) from by ring,
        hadd, hBdecomp]
      rw [show (2 + ((lenBytes m.length).length : Int)).toNat =
          (0x82 :: l7val m.length :: lenBytes m.length).length from by
        simp; omega]
      rw [List.drop_left]
      have hc2 : (0x82 :: l7val m.length :: lenBytes m.length) ++
          ((m ++ rest).take ((sl c.rbuf c.i c.en).length -
            (2 + (lenBytes m.length).length)) ++
            c.tr.b.drop c.tr.r) =
          (0x82 :: l7val m.length :: lenBytes m.length) ++ (m ++ rest) := by
        rw [← List.append_assoc, ← hBdecomp, hstream, hencm]
      exact List.append_cancel_left hc2
    · dsimp only
      rcases hfill with h | h | h
      · exact Or.inl h
      · exact Or.inr (Or.inl h)
      · exact Or.inr (Or.inr (by omega))
  · -- partial or empty header in the buffer: one failed parse, one refill
    have hstreamlen : (encFrame m ++ rest).length =
        (2 + (lenBytes m.length).length) + (m ++ rest).length := by
      simp [encFrame_len]
      omega
    have hrem : c.tr.b.drop c.tr.r ≠ [] := by
      intro hnil
      rw [hnil, List.append_nil] at hstream
      have hh := congrArg List.length hstream
      omega
    have hrlt : c.tr.r < c.tr.b.length := by
      by_contra hc
      exact hrem (List.drop_eq_nil_of_le (by omega))
    have hcomp : Int.tdiv c.en 2 ≤ c.i := by
      rw [Int.tdiv_eq_ediv hen0 (by omega)]
      omega
    obtain ⟨H, L, hfail⟩ : ∃ H L,
        c.parseFrameHeader (sl c.rbuf 0 c.en) c.st = some (H, L, -1, c.key) := by
      by_cases hB2 : (sl c.rbuf c.i c.en).length < 2
      · refine ⟨⟨0, 0⟩, 0, parseFrameHeader_short c _ ?_⟩
        have hsl0 := sl_length c.rbuf 0 c.en (le_refl 0) hen0 (by omega)
        omega
      · have hie : c.i < c.en := by
          by_contra hc
          rw [sl_nil c.rbuf c.i c.en (by omega)] at hB2
          simp at hB2
        have hencbuf : c.en = (cbuf : Int) := by
          rcases hfill with h | h | h
          · exact h
          · exact absurd (List.drop_eq_nil_of_le h) hrem
          · omega
        obtain ⟨k, hk⟩ : ∃ k, (sl c.rbuf c.i c.en).length = k + 2 :=
          ⟨(sl c.rbuf c.i c.en).length - 2, by omega⟩
        have hBval : sl c.rbuf c.i c.en = (encFrame m ++ rest).take (k + 2) := by
          rw [← hk, ← hstream, List.take_append_of_le_length (le_refl _),
            List.take_length]
        have hencm2 : encFrame m ++ rest =
            0x82 :: l7val m.length :: (lenBytes m.length ++ (m ++ rest)) := by
          rw [hencm]
          simp
        have hBcons : sl c.rbuf c.i c.en =
            0x82 :: l7val m.length ::
              ((lenBytes m.length ++ (m ++ rest)).take k) := by
          rw [hBval, hencm2, show k + 2 = (k + 1) + 1 from rfl,
            List.take_succ_cons, List.take_succ_cons]
        have hPlen := sl_length c.rbuf 0 c.i (le_refl 0) hi0 (by omega)
        refine ⟨⟨0x82, l7val m.length⟩, 0, parseFrameHeader_hdrPartial c _
          (sl c.rbuf 0 c.i) ((lenBytes m.length ++ (m ++ rest)).take k)
          m.length ?_ ?_ ?_ ?_⟩
        · rw [sl_split c.rbuf c.i c.en hi0 (by omega), hBcons]
        · rw [hst]
          omega
        · simp only [List.length_take]
          have hkk := congrArg List.length hBcons
          simp only [List.length_cons, List.length_take] at hkk
          omega
        · rw [hlen]
          omega
    obtain ⟨n, e, c2, hread, hInv2, hst2, hi2, hmore2, htrb2, hen2, hbuf2,
      heof2, hpos2, hecases2⟩ :=
      read_inv cbuf hcb c (encFrame m ++ rest)
        ⟨hlen, hkey, hrc, hi0, hen0, hencb, hrr, hstream, hfill⟩ hcomp
    have hLge : 2 + (lenBytes m.length).length ≤
        min cbuf (encFrame m ++ rest).length := by omega
    have hb2 : sl c2.rbuf 0 c2.en =
        [] ++ (0x82 :: l7val m.length :: lenBytes m.length) ++
          (m ++ rest).take (min cbuf (encFrame m ++ rest).length -
            (2 + (lenBytes m.length).length)) := by
      rw [hbuf2, hencm, List.take_append_eq_append_take,
        List.take_of_length_le (by simp; omega), List.nil_append]
      congr 2
      simp
      omega
    obtain ⟨hlen2, hkey2, hrc2, hi02, hen02, hencb2, hrr2, hstream2,
      hfill2⟩ := hInv2
    have hparse2 := rfhLoop_enc FakeTr fuel c2 [] _ m.length hen02
      (by rw [hlen2]; exact hencb2) hb2 (by rw [hst2, hst]; simp) hm
    have hstep : Conn.rfhLoop FakeTr (fuel + 1 + 1) c =
        Conn.rfhLoop FakeTr (fuel + 1) c2 :=
      rfhLoop_step FakeTr (fuel + 1) c _ H L n e c2
        (gslice_eq_sl c.rbuf 0 c.en (le_refl 0) hen0 (by omega)) hfail hread
        (by rcases hecases2 with he | he
            · exact Or.inr he
            · exact Or.inl ⟨by have := hpos2 hrlt; omega, by rw [he]; rfl⟩)
    refine ⟨_, hstep.trans hparse2, ?_, ?_⟩
    · -- invariant for the post-header state
      have hip : ((([] : List Nat).length : Int) + 2 +
          ((lenBytes m.length).length : Int)).toNat =
          (0x82 :: l7val m.length :: lenBytes m.length).length := by
        simp
        omega
      refine ⟨hlen2, hkey2, hrc2, by dsimp only; positivity, hen02, hencb2,
        hrr2, ?_, ?_⟩
      · dsimp only
        have hadd := sl_add c2.rbuf 0 c2.en
          ((([] : List Nat).length : Int) + 2 +
            ((lenBytes m.length).length : Int)) (le_refl 0) (by positivity)
        rw [zero_add] at hadd
        rw [hadd, hip, hb2, List.nil_append, List.drop_left]
        have hst2' := hstream2
        rw [hi2, hb2, List.nil_append, hencm, List.append_assoc] at hst2'
        rw [hencm]
        exact List.append_cancel_left hst2'
      · dsimp only
        rcases hfill2 with h | h | h
        · exact Or.inl h
        · exact Or.inr (Or.inl h)
        · exact Or.inr (Or.inr (by rw [hi2] at h; simp; omega))
    · rfl

end WS

namespace WS

theorem afLoop_zero {τ : Type} (T : Tr τ) (fuel : Nat) (c : Conn τ)
    (p : List Nat) (k : Nat) (hf : 1 ≤ fuel) :
    Conn.afLoop T fuel c p k 0 =
      some (p.take k, csel (c.more == 0) (some GErr.eof) none, c) := by
  obtain ⟨f, rfl⟩ : ∃ f, fuel = f + 1 := ⟨fuel - 1, by omega⟩
  simp only [Conn.afLoop]
  rw [if_pos trivial]

theorem splice_id (l : List Nat) (a b : Nat) :
    l.take a ++ (l.drop a).take b ++ l.drop (a + b) = l := by
  rw [show l.drop (a + b) = (l.drop a).drop b from by rw [List.drop_drop],
    List.append_assoc, List.take_append_drop, List.take_append_drop]

theorem copyAt_take_add (p src : List Nat) (n : Nat)
    (h : n + src.length ≤ p.length) :
    (copyAt p n src).take (n + src.length) = p.take n ++ src := by
  unfold copyAt
  rw [show n + src.length = (p.take n).length + src.length from by
      simp [List.length_take]
      omega,
    take_len_append]

/-- The header phase at end of stream: the parse fails on an empty
buffer, the refill returns zero bytes with EOF, and the loop surfaces the
EOF. -/
theorem rfhLoop_inv_eof (cbuf : Nat) (hcb : 32 ≤ cbuf) (fuel : Nat)
    (c : Conn FakeConn) (hInv : ReaderInv cbuf c []) (hst : c.st = c.i) :
    ∃ c2, Conn.rfhLoop FakeTr (fuel + 1) c =
      some ((0, false, 0), some .eof, c2) := by
  obtain ⟨hlen, hkey, hrc, hi0, hen0, hencb, hrr, hstream, hfill⟩ := hInv
  obtain ⟨hB, hrem⟩ := List.append_eq_nil.mp hstream
  have hen_le : c.en ≤ c.i := by
    by_contra hc
    have := sl_length c.rbuf c.i c.en hi0 (by omega) (by omega)
    rw [hB] at this
    simp at this
    omega
  have hsl0 := sl_length c.rbuf 0 c.en (le_refl 0) hen0 (by omega)
  have hfail := parseFrameHeader_short c (sl c.rbuf 0 c.en)
    (by rw [hst]; omega)
  have hrlen : c.tr.b.length ≤ c.tr.r := by
    by_contra hc
    have hne : c.tr.b.drop c.tr.r ≠ [] := by
      intro h0
      have := congrArg List.length h0
      simp at this
      omega
    exact hne hrem
  have hcomp : Int.tdiv c.en 2 ≤ c.i := by
    rw [Int.tdiv_eq_ediv hen0 (by omega)]
    omega
  obtain ⟨n, e, c2, hread, hInv2, hst2, hi2, hmore2, htrb2, hen2, hbuf2,
    heof2, hpos2, hecases2⟩ :=
    read_inv cbuf hcb c []
      ⟨hlen, hkey, hrc, hi0, hen0, hencb, hrr, hstream, hfill⟩ hcomp
  obtain ⟨hn0, herr⟩ := heof2 hrlen
  subst hn0 herr
  refine ⟨c2, ?_⟩
  simp only [Conn.rfhLoop]
  rw [gslice_eq_sl c.rbuf 0 c.en (le_refl 0) hen0 (by omega)]
  dsimp only
  rw [hfail]
  dsimp only
  rw [if_neg (by omega), hread]
  dsimp only
  rw [if_neg (by simp), if_pos (by simp)]

end WS

namespace WS

theorem sl_take (b : List Nat) (i ed en : Int) (h0 : 0 ≤ i) (h1 : i ≤ ed)
    (h2 : ed ≤ en) :
    sl b i ed = (sl b i en).take (ed - i).toNat := by
  unfold sl
  rw [show b.take ed.toNat = (b.take en.toNat).take ed.toNat from by
      rw [List.take_take, Nat.min_eq_left (by omega)],
    List.drop_take]
  congr 1
  omega

theorem sl_prefix (b : List Nat) (i en : Int) (rem stream : List Nat)
    (h : sl b i en ++ rem = stream) :
    sl b i en = stream.take (sl b i en).length := by
  rw [← h, List.take_append_of_le_length (le_refl _), List.take_length]

end WS

namespace WS

/-- The payload delivery loop under the reader invariant: requesting
`more` bytes of the current frame (whose remaining payload is `cur`)
copies exactly `cur.take more` into the caller buffer — through any mix
of buffered copies, direct transport reads, and refills — and
re-establishes the invariant with those bytes consumed. -/
theorem afLoop_inv (cbuf : Nat) (hcb : 32 ≤ cbuf) :
    ∀ (fuel : Nat) (c : Conn FakeConn) (p : List Nat) (n : Nat) (more : Int)
      (cur rest : List Nat),
      ReaderInv cbuf c (cur ++ rest) →
      c.more = (cur.length : Int) →
      1 ≤ more → more ≤ (cur.length : Int) →
      (p.length : Int) = (n : Int) + more →
      2 * more.toNat + (if c.en ≤ c.i then 2 else 1) ≤ fuel →
      ∃ c2, Conn.afLoop FakeTr fuel c p n more =
          some (p.take n ++ cur.take more.toNat,
            csel ((cur.length : Int) - more == 0) (some GErr.eof) none, c2) ∧
        ReaderInv cbuf c2 (cur.drop more.toNat ++ rest) ∧
        c2.more = (cur.length : Int) - more := by
  intro fuel
  induction fuel with
  | zero =>
    intro c p n more cur rest hInv hcm hm1 hm2 hp hfuel
    exact absurd hfuel (by by_cases h : c.en ≤ c.i <;> simp [h] <;> omega)
  | succ fuel ih =>
    intro c p n more cur rest hInv hcm hm1 hm2 hp hfuel
    obtain ⟨hlen, hkey, hrc, hi0, hen0, hencb, hrr, hstream, hfill⟩ := hInv
    simp only [Conn.afLoop]
    rw [if_neg (by omega)]
    by_cases hie : c.i < c.en
    · -- buffered-copy branch
      rw [if_pos hie]
      rw [if_neg (show ¬ c.en ≤ c.i from by omega)] at hfuel
      have hBlen : ((sl c.rbuf c.i c.en).length : Int) = c.en - c.i :=
        sl_length c.rbuf c.i c.en hi0 (by omega) (by omega)
      have hseg := gslice_eq_sl c.rbuf c.i (min c.en (c.i + more)) hi0
        (by omega) (by omega)
      rw [hseg]
      dsimp only
      have hseglen : ((sl c.rbuf c.i (min c.en (c.i + more))).length : Int) =
          min c.en (c.i + more) - c.i :=
        sl_length c.rbuf c.i (min c.en (c.i + more)) hi0 (by omega) (by omega)
      have hmeq : min (p.length - n)
          (sl c.rbuf c.i (min c.en (c.i + more))).length =
          (sl c.rbuf c.i (min c.en (c.i + more))).length := by omega
      have hsegcur : sl c.rbuf c.i (min c.en (c.i + more)) =
          cur.take (sl c.rbuf c.i (min c.en (c.i + more))).length := by
        rw [sl_take c.rbuf c.i (min c.en (c.i + more)) c.en hi0 (by omega)
            (by omega),
          sl_prefix c.rbuf c.i c.en _ _ hstream, List.take_take]
        rw [List.take_append_of_le_length (by simp [List.length_take]; omega)]
        congr 1
        simp [List.length_take]
        omega
      have hLcur : ((sl c.rbuf c.i (min c.en (c.i + more))).length : Int) ≤
          more := by omega
      have hL1 : 1 ≤ (sl c.rbuf c.i (min c.en (c.i + more))).length := by
        omega
      have hcap : n + (sl c.rbuf c.i (min c.en (c.i + more))).length ≤
          p.length := by omega
      simp only [hmeq, List.take_length]
      rw [show ∀ (X : List Nat) (off : Int), maskBuf X c.key off = X from
          fun X off => by rw [hkey, maskBuf_zero_key],
        show ((copyAt p n (sl c.rbuf c.i (min c.en (c.i + more)))).take n ++
            ((copyAt p n (sl c.rbuf c.i (min c.en (c.i + more)))).drop n).take
              (sl c.rbuf c.i (min c.en (c.i + more))).length ++
            (copyAt p n (sl c.rbuf c.i (min c.en (c.i + more)))).drop
              (n + (sl c.rbuf c.i (min c.en (c.i + more))).length)) =
          copyAt p n (sl c.rbuf c.i (min c.en (c.i + more))) from
          splice_id _ n _]
      -- the new connection state after the copy
      have hInv' : ReaderInv cbuf
          { c with i := c.i + ((sl c.rbuf c.i (min c.en (c.i + more))).length : Int), more := c.more - ((sl c.rbuf c.i (min c.en (c.i + more))).length : Int) }
          (cur.drop (sl c.rbuf c.i (min c.en (c.i + more))).length ++ rest) := by
        refine ⟨hlen, hkey, hrc, by dsimp only; omega, hen0, hencb, hrr, ?_, ?_⟩
        · dsimp only
          rw [sl_add c.rbuf c.i c.en _ hi0 (by omega), Int.toNat_natCast]
          have hdrop := congrArg
            (List.drop (sl c.rbuf c.i (min c.en (c.i + more))).length) hstream
          rw [List.drop_append_of_le_length (by omega)] at hdrop
          rw [List.drop_append_of_le_length (by omega)] at hdrop
          rw [show (sl c.rbuf c.i c.en).drop
              (sl c.rbuf c.i (min c.en (c.i + more))).length =
              (sl c.rbuf c.i c.en).drop
                (sl c.rbuf c.i (min c.en (c.i + more))).length from rfl] at hdrop
          exact hdrop
        · dsimp only
          rcases hfill with h | h | h
          · exact Or.inl h
          · exact Or.inr (Or.inl h)
          · exact Or.inr (Or.inr (by omega))
      by_cases hdone :
          more - ((sl c.rbuf c.i (min c.en (c.i + more))).length : Int) = 0
      · rw [hdone, afLoop_zero FakeTr fuel _ _ _ (by omega)]
        refine ⟨{ c with i := c.i + ((sl c.rbuf c.i (min c.en (c.i + more))).length : Int), more := c.more - ((sl c.rbuf c.i (min c.en (c.i + more))).length : Int) }, ?_, ?_, ?_⟩
        · simp only [Option.some.injEq, Prod.mk.injEq]
          refine ⟨?_, ?_, trivial⟩
          · rw [copyAt_take_add p _ n hcap, hsegcur]
            congr 2
            omega
          · dsimp only
            rw [show c.more -
                ((sl c.rbuf c.i (min c.en (c.i + more))).length : Int) =
                (cur.length : Int) - more from by omega]
        · rw [show cur.drop (sl c.rbuf c.i (min c.en (c.i + more))).length =
              cur.drop more.toNat from by congr 1; omega] at hInv'
          exact hInv'
        · dsimp only
          omega
      · -- continue with the remaining request
        obtain ⟨c2, hrec, hInv2, hmore2⟩ := ih _ _ (n + (sl c.rbuf c.i
            (min c.en (c.i + more))).length)
          (more - ((sl c.rbuf c.i (min c.en (c.i + more))).length : Int))
          (cur.drop (sl c.rbuf c.i (min c.en (c.i + more))).length) rest
          hInv' (by dsimp only; simp [List.length_drop]; omega)
          (by omega) (by simp [List.length_drop]; omega)
          (by rw [copyAt_length p _ n hcap]; push_cast; omega)
          (by dsimp only
              by_cases hh : c.en ≤ c.i +
                ((sl c.rbuf c.i (min c.en (c.i + more))).length : Int) <;>
                simp [hh] <;> omega)
        rw [hrec]
        refine ⟨c2, ?_, ?_, ?_⟩
        · simp only [Option.some.injEq, Prod.mk.injEq]
          refine ⟨?_, ?_, trivial⟩
          · rw [copyAt_take_add p _ n hcap, List.append_assoc]
            congr 1
            nth_rewrite 1 [hsegcur]
            rw [← List.take_add]
            congr 1
            omega
          · congr 1
            rw [show ((cur.drop (sl c.rbuf c.i
                (min c.en (c.i + more))).length).length : Int) -
                (more - ((sl c.rbuf c.i
                  (min c.en (c.i + more))).length : Int)) =
                (cur.length : Int) - more from by
              simp [List.length_drop]
              omega]
        · rw [show (cur.drop (sl c.rbuf c.i
              (min c.en (c.i + more))).length).drop
              (more - ((sl c.rbuf c.i
                (min c.en (c.i + more))).length : Int)).toNat =
              cur.drop more.toNat from by
            rw [List.drop_drop]
            congr 1
            omega] at hInv2
          exact hInv2
        · rw [hmore2]
          simp [List.length_drop]
          omega
    · -- buffered slice empty: direct transport read or refill
      rw [if_neg hie]
      rw [if_pos (show c.en ≤ c.i from by omega)] at hfuel
      have hB : sl c.rbuf c.i c.en = [] := sl_nil c.rbuf c.i c.en (by omega)
      have hrem : c.tr.b.drop c.tr.r = cur ++ rest := by
        rw [← hstream, hB, List.nil_append]
      have hremlen : cur.length + rest.length ≤ c.tr.b.length - c.tr.r := by
        have hh := congrArg List.length hrem
        simp [List.length_drop] at hh
        omega
      by_cases hbig : more ≥ (c.rbuf.length : Int) - 0x10
      · -- direct transport read of the whole request
        rw [if_pos hbig]
        simp only [FakeTr_rd, FakeConn.rd]
        have hbs : (c.tr.b.drop c.tr.r).take more.toNat =
            cur.take more.toNat := by
          rw [hrem, List.take_append_of_le_length (by omega)]
        simp only [hbs]
        have hm : (cur.take more.toNat).length = more.toNat := by
          simp [List.length_take]
          omega
        simp only [hm]
        rw [if_neg (by
          by_cases hfin : c.tr.r + more.toNat = c.tr.b.length <;>
            simp [hfin, isEOF])]
        rw [show ∀ (X : List Nat) (off : Int), maskBuf X c.key off = X from
            fun X off => by rw [hkey, maskBuf_zero_key]]
        rw [show ((copyAt p n (cur.take more.toNat)).take n ++
            ((copyAt p n (cur.take more.toNat)).drop n).take more.toNat ++
            (copyAt p n (cur.take more.toNat)).drop (n + more.toNat)) =
            (copyAt p n (cur.take more.toNat)).take n ++
            (((copyAt p n (cur.take more.toNat)).drop n).take more.toNat ++
            (copyAt p n (cur.take more.toNat)).drop (n + more.toNat)) from by
          rw [List.append_assoc]]
        rw [show (n + more.toNat : Nat) = n + more.toNat from rfl]
        rw [show more - ((more.toNat : Nat) : Int) = (0 : Int) from by omega,
          afLoop_zero FakeTr fuel _ _ _ (by omega)]
        refine ⟨{ c with tr := ⟨c.tr.b, c.tr.r + more.toNat⟩, i := c.i + (more.toNat : Int), more := c.more - (more.toNat : Int) }, ?_, ?_, ?_⟩
        · simp only [Option.some.injEq, Prod.mk.injEq]
          refine ⟨?_, ?_, ?_⟩
          · rw [show (copyAt p n (cur.take more.toNat)).take n ++
                (((copyAt p n (cur.take more.toNat)).drop n).take more.toNat ++
                (copyAt p n (cur.take more.toNat)).drop (n + more.toNat)) =
                copyAt p n (cur.take more.toNat) from by
              rw [← List.append_assoc]
              exact splice_id _ n more.toNat]
            rw [show n + more.toNat = n + (cur.take more.toNat).length from by
              rw [hm], copyAt_take_add p _ n (by rw [hm]; omega)]
          · dsimp only
            rw [show c.more - ((more.toNat : Nat) : Int) =
                (cur.length : Int) - more from by omega]
          · trivial
        · refine ⟨hlen, hkey, hrc, by dsimp only; omega, hen0, hencb, ?_,
            ?_, ?_⟩
          · dsimp only
            omega
          · dsimp only
            rw [sl_nil _ _ _ (by omega), List.nil_append,
              ← List.drop_drop, hrem, List.drop_append_of_le_length (by omega)]
          · dsimp only
            exact Or.inr (Or.inr (by omega))
        · dsimp only
          omega
      · -- refill, then deliver from the buffer
        rw [if_neg hbig]
        have hcomp : Int.tdiv c.en 2 ≤ c.i := by
          rw [Int.tdiv_eq_ediv hen0 (by omega)]
          omega
        obtain ⟨nr, e, c2, hread, hInv2, hst2, hi2, hmore2, htrb2, hen2,
          hbuf2, heof2, hpos2, hecases2⟩ :=
          read_inv cbuf hcb c (cur ++ rest)
            ⟨hlen, hkey, hrc, hi0, hen0, hencb, hrr, hstream, hfill⟩ hcomp
        rw [hread]
        dsimp only
        rw [if_neg (by
          have hcur : cur ≠ [] := by
            intro h0
            rw [h0] at hm2
            simp at hm2
            omega
          have hnr := hpos2 (by
            by_contra hc
            have hdn : c.tr.b.drop c.tr.r = [] :=
              List.drop_eq_nil_of_le (by omega)
            rw [hrem] at hdn
            exact hcur (List.append_eq_nil.mp hdn).1)
          rcases hecases2 with he | he <;> subst he <;>
            simp [isEOF] <;> omega)]
        obtain ⟨c2', hrec, hInv2', hmore2'⟩ := ih c2 p n more cur rest hInv2
          (by rw [hmore2, hcm]) hm1 hm2 hp
          (by
            rw [if_neg (show ¬ c2.en ≤ c2.i from by
              rw [hi2, hen2]
              simp [List.length_append]
              omega)]
            omega)
        rw [hrec]
        exact ⟨c2', rfl, hInv2', hmore2'⟩

end WS

namespace WS

theorem appendFrame_read (cbuf : Nat) (hcb : 32 ≤ cbuf) (hdrFuel chunk : Nat)
    (c : Conn FakeConn) (cur rest : List Nat)
    (hInv : ReaderInv cbuf c (cur ++ rest))
    (hcm : c.more = (cur.length : Int)) (hchunk : 1 ≤ chunk)
    (hf : 2 * min chunk cur.length + 2 ≤ hdrFuel) :
    ∃ c2 e, c.appendFrame FakeTr hdrFuel [] (chunk : Int) =
        some (cur.take (min chunk cur.length), e, c2) ∧
      (if isEOF e then none else e) = (none : Option GErr) ∧
      ReaderInv cbuf c2 (cur.drop (min chunk cur.length) ++ rest) ∧
      c2.more = (cur.length : Int) - ((min chunk cur.length : Nat) : Int) := by
  by_cases hne : cur = []
  · subst hne
    refine ⟨c, some GErr.eof, ?_, rfl, ?_, ?_⟩
    · simp only [Conn.appendFrame]
      rw [if_pos (by simp [hcm])]
      simp
    · simpa using hInv
    · simp [hcm]
  · have hcur1 : 1 ≤ cur.length := by
      rcases cur with _ | _
      · exact absurd rfl hne
      · simp
    have hmin1 : 1 ≤ min chunk cur.length := by omega
    obtain ⟨c2, hloop, hInv2, hm2⟩ := afLoop_inv cbuf hcb hdrFuel c
      (List.replicate (min chunk cur.length) 0) 0
      ((min chunk cur.length : Nat) : Int) cur rest hInv hcm
      (by exact_mod_cast hmin1) (by simp) (by simp)
      (by by_cases h : c.en ≤ c.i <;> simp [h] <;> omega)
    rw [Int.toNat_natCast] at hloop hInv2
    refine ⟨c2, csel ((cur.length : Int) - ((min chunk cur.length : Nat) : Int) == 0) (some GErr.eof) none, ?_, ?_, hInv2, hm2⟩
    · simp only [Conn.appendFrame]
      rw [if_neg (by rw [hcm]; intro h0; omega)]
      have hmore : min (chunk : Int) c.more =
          ((min chunk cur.length : Nat) : Int) := by
        rw [hcm]
        omega
      rw [hmore, if_neg (by omega)]
      simp only [List.nil_append, List.length_nil, Int.toNat_natCast]
      rw [hloop]
      simp
    · cases ((cur.length : Int) - ((min chunk cur.length : Nat) : Int) == 0) <;>
        rfl

theorem read_step_mid (cbuf : Nat) (hcb : 32 ≤ cbuf) (hdrFuel chunk : Nat)
    (c : Conn FakeConn) (cur rest : List Nat)
    (hInv : ReaderInv cbuf c (cur ++ rest))
    (hcm : c.more = (cur.length : Int)) (hne : cur ≠ [])
    (hchunk : 1 ≤ chunk) (hf : 2 * min chunk cur.length + 2 ≤ hdrFuel) :
    ∃ c2, c.Read FakeTr 2 hdrFuel chunk =
        some (cur.take (min chunk cur.length), none, c2) ∧
      ReaderInv cbuf c2 (cur.drop (min chunk cur.length) ++ rest) ∧
      c2.more = (cur.length : Int) - ((min chunk cur.length : Nat) : Int) := by
  have hcur1 : 1 ≤ cur.length := by
    rcases cur with _ | _
    · exact absurd rfl hne
    · simp
  obtain ⟨c2, e, happ, he, hInv2, hm2⟩ :=
    appendFrame_read cbuf hcb hdrFuel chunk c cur rest hInv hcm hchunk hf
  refine ⟨c2, ?_, hInv2, hm2⟩
  simp only [Conn.Read]
  rw [if_pos (by rw [hcm]; intro h0; omega), happ]
  dsimp only
  rw [he]

theorem read_step_frame (cbuf : Nat) (hcb : 32 ≤ cbuf) (hdrFuel chunk : Nat)
    (c : Conn FakeConn) (m rest : List Nat)
    (hInv : ReaderInv cbuf c (encFrame m ++ rest)) (hm0 : c.more = 0)
    (hml : m.length ≤ maxLen64) (hchunk : 1 ≤ chunk)
    (hf : 2 * min chunk m.length + 2 ≤ hdrFuel) :
    ∃ c2, c.Read FakeTr 2 hdrFuel chunk =
        some (m.take (min chunk m.length), none, c2) ∧
      ReaderInv cbuf c2 (m.drop (min chunk m.length) ++ rest) ∧
      c2.more = (m.length : Int) - ((min chunk m.length : Nat) : Int) := by
  obtain ⟨hlen, hkey, hrc, hi0, hen0, hencb, hrr, hstream, hfill⟩ := hInv
  obtain ⟨f, rfl⟩ : ∃ f, hdrFuel = f + 2 := ⟨hdrFuel - 2, by omega⟩
  have hc' : ReaderInv cbuf { c with st := c.i + c.more, i := c.i + c.more } (encFrame m ++ rest) := by
    rw [hm0, add_zero]
    exact ⟨hlen, hkey, hrc, hi0, hen0, hencb, hrr, hstream, hfill⟩
  obtain ⟨d2, hloop, hInv2, hm2⟩ := rfhLoop_inv cbuf hcb f
    { c with st := c.i + c.more, i := c.i + c.more } m rest hc' rfl hml
  obtain ⟨c2, e, happ, he, hInv3, hm3⟩ :=
    appendFrame_read cbuf hcb (f + 2) chunk d2 m rest hInv2 hm2 hchunk hf
  refine ⟨c2, ?_, hInv3, hm3⟩
  rw [show (2 : Nat) = 0 + 1 + 1 from rfl]
  simp only [Conn.Read, Conn.readDataFrameHeader]
  rw [if_neg (by simp [hm0])]
  simp only [Conn.rdfhLoop]
  rw [readFrameHeader_eq FakeTr (f + 2) c hrc, hloop]
  dsimp only
  rw [if_pos (show (2 : Nat) = FrameContinue ∨ (2 : Nat) = FrameText ∨ (2 : Nat) = FrameBinary from by decide)]
  dsimp only
  rw [happ]
  dsimp only
  rw [he]

theorem read_step_eof (cbuf : Nat) (hcb : 32 ≤ cbuf) (hdrFuel chunk : Nat)
    (c : Conn FakeConn) (hInv : ReaderInv cbuf c []) (hm0 : c.more = 0)
    (hf : 1 ≤ hdrFuel) :
    ∃ c2, c.Read FakeTr 2 hdrFuel chunk = some ([], some GErr.eof, c2) := by
  obtain ⟨hlen, hkey, hrc, hi0, hen0, hencb, hrr, hstream, hfill⟩ := hInv
  obtain ⟨f, rfl⟩ : ∃ f, hdrFuel = f + 1 := ⟨hdrFuel - 1, by omega⟩
  have hc' : ReaderInv cbuf { c with st := c.i + c.more, i := c.i + c.more } [] := by
    rw [hm0, add_zero]
    exact ⟨hlen, hkey, hrc, hi0, hen0, hencb, hrr, hstream, hfill⟩
  obtain ⟨c2, hloop⟩ := rfhLoop_inv_eof cbuf hcb f
    { c with st := c.i + c.more, i := c.i + c.more } hc' rfl
  refine ⟨c2, ?_⟩
  rw [show (2 : Nat) = 0 + 1 + 1 from rfl]
  simp only [Conn.Read, Conn.readDataFrameHeader]
  rw [if_neg (by simp [hm0])]
  simp only [Conn.rdfhLoop]
  rw [readFrameHeader_eq FakeTr (f + 1) c hrc, hloop]

end WS

namespace WS

theorem FakeTr_wr (t : FakeConn) (p : List Nat) :
    Tr.wr FakeTr t p = ((p.length : Int), none, ⟨t.b ++ p, t.r⟩) :=
  rfl

/-- A fresh server-side (unmasked) writer over an empty `FakeConn` pipe,
as the fuzz harness constructs it (`&Conn{Conn: &c}`). -/
def mkWriter : Conn FakeConn :=
  ⟨⟨[], 0⟩, 0, false, false, [], [], 0, 0, 0, ⟨0, 0⟩, [0, 0, 0, 0], 0, 0⟩

/-- One server-side `Write` appends exactly the frame image of `m` to the
pipe and reports `len(m)` written with no error. -/
theorem write_appends (c : Conn FakeConn) (m : List Nat) (hw : c.wbuf = [])
    (hcl : c.client = 0) (hm : m.length ≤ maxLen64) :
    c.Write' FakeTr m [0, 0, 0, 0] =
      some ((m.length : Int), none,
        { c with wbuf := [], tr := ⟨c.tr.b ++ encFrame m, c.tr.r⟩ }, m) := by
  unfold Conn.Write'
  rw [writeFrame_eq FakeTr c m FrameBinary true [0, 0, 0, 0] hw rfl hm]
  rw [hcl]
  rw [show frameBytes 0 FrameBinary true [0, 0, 0, 0] m = encFrame m from rfl]
  rw [FakeTr_wr]
  dsimp only
  rw [show ((encFrame m).length : Int) - (hdrSize 0 m.length : Int) =
      (m.length : Int) from by rw [encFrame_len]; simp [hdrSize]]

/-- Concatenation of a list of messages. -/
def cat : List (List Nat) → List Nat
  | [] => []
  | m :: tl => m ++ cat tl

/-- The fuzz drain loop returns exactly the residual frame payload plus
the concatenation of all still-encoded messages, then stops at the EOF
frame-header read. -/
theorem drain_inv (cbuf : Nat) (hcb : 32 ≤ cbuf) (chunk hdrFuel : Nat)
    (hchunk : 1 ≤ chunk) (hdf : 2 * chunk + 2 ≤ hdrFuel) :
    ∀ (fuel : Nat) (c : Conn FakeConn) (cur : List Nat)
      (ms : List (List Nat)) (acc : List Nat),
      ReaderInv cbuf c (cur ++ encs ms) →
      c.more = (cur.length : Int) →
      (∀ m ∈ ms, m.length ≤ maxLen64) →
      cur.length + (encs ms).length + 1 ≤ fuel →
      ∃ c2, drainLoop fuel hdrFuel c chunk acc =
        some (acc ++ (cur ++ cat ms), c2) := by
  intro fuel
  induction fuel with
  | zero =>
    intro c cur ms acc _ _ _ hfuel
    omega
  | succ fuel ih =>
    intro c cur ms acc hInv hcm hms hfuel
    by_cases hne : cur = []
    · subst hne
      rcases ms with _ | ⟨m, tl⟩
      · obtain ⟨c2, hread⟩ := read_step_eof cbuf hcb hdrFuel chunk c
          (by simpa using hInv) (by simpa using hcm) (by omega)
        refine ⟨c2, ?_⟩
        simp only [drainLoop]
        rw [hread]
        simp [cat]
      · obtain ⟨c2, hread, hInv2, hm2⟩ := read_step_frame cbuf hcb hdrFuel
          chunk c m (encs tl) (by simpa [encs] using hInv)
          (by simpa using hcm) (hms m (by simp)) hchunk (by omega)
        have hm2' : c2.more = ((m.drop (min chunk m.length)).length : Int) := by
          rw [hm2]
          simp [List.length_drop]
        have henc : 2 + m.length ≤ (encFrame m).length := by
          rw [encFrame_len]
          omega
        have hmeas : (m.drop (min chunk m.length)).length +
            (encs tl).length + 1 ≤ fuel := by
          simp only [encs, List.length_append] at hfuel
          simp [List.length_drop]
          omega
        obtain ⟨c2', hrec⟩ := ih c2 (m.drop (min chunk m.length)) tl
          (acc ++ m.take (min chunk m.length)) hInv2 hm2'
          (fun x hx => hms x (by simp [hx])) hmeas
        refine ⟨c2', ?_⟩
        simp only [drainLoop]
        rw [hread]
        dsimp only
        rw [hrec]
        simp [cat, List.append_assoc]
        rw [← List.append_assoc, List.take_append_drop]
    · have hcur1 : 1 ≤ cur.length := by
        rcases cur with _ | _
        · exact absurd rfl hne
        · simp
      obtain ⟨c2, hread, hInv2, hm2⟩ := read_step_mid cbuf hcb hdrFuel chunk
        c cur (encs ms) hInv hcm hne hchunk (by omega)
      have hm2' : c2.more = ((cur.drop (min chunk cur.length)).length : Int) := by
        rw [hm2]
        simp [List.length_drop]
      have hmeas : (cur.drop (min chunk cur.length)).length +
          (encs ms).length + 1 ≤ fuel := by
        simp [List.length_drop]
        omega
      obtain ⟨c2', hrec⟩ := ih c2 (cur.drop (min chunk cur.length)) ms
        (acc ++ cur.take (min chunk cur.length)) hInv2 hm2' hms hmeas
      refine ⟨c2', ?_⟩
      simp only [drainLoop]
      rw [hread]
      dsimp only
      rw [hrec]
      simp [List.append_assoc]
      rw [← List.append_assoc, List.take_append_drop]

end WS

namespace WS

/-- A fresh reader over `wire` satisfies the reader invariant with the
whole wire still pending. -/
theorem mkReader_inv (wire : List Nat) (cbuf : Nat) :
    ReaderInv cbuf (mkReader wire cbuf) ([] ++ wire) := by
  refine ⟨by simp [mkReader], rfl, rfl, le_refl 0, le_refl 0,
    by simp [mkReader], by simp [mkReader], ?_, ?_⟩
  · simp [mkReader, sl]
  · exact Or.inr (Or.inr (le_refl 0))

/-- C1: round-trip.  For every read-buffer size in [32, 4096], every
caller chunk size in [1, 4096] and any three messages, writing the three
messages with `Write` on a fresh server-side endpoint appends exactly
their frame images to the shared transport pipe, each write reporting
`len(mᵢ)` bytes and no error; and a peer reader over those transport
bytes, `Read`ing `chunk` bytes at a time until EOF (the fuzz harness's
drain loop), accumulates exactly `m0 ++ m1 ++ m2` — the concatenation of
the original message bytes, in order, with no bytes added, lost or
reordered. -/
theorem c1_roundtrip_three_messages (cbuf chunk : Nat)
    (hcb : 32 ≤ cbuf) (hcb2 : cbuf ≤ 4096)
    (hch : 1 ≤ chunk) (hch2 : chunk ≤ 4096)
    (m0 m1 m2 : List Nat)
    (h0 : m0.length ≤ maxLen64) (h1 : m1.length ≤ maxLen64)
    (h2 : m2.length ≤ maxLen64) :
    ∃ w1 w2 w3 r2,
      mkWriter.Write' FakeTr m0 [0, 0, 0, 0] =
        some ((m0.length : Int), none, w1, m0) ∧
      w1.Write' FakeTr m1 [0, 0, 0, 0] =
        some ((m1.length : Int), none, w2, m1) ∧
      w2.Write' FakeTr m2 [0, 0, 0, 0] =
        some ((m2.length : Int), none, w3, m2) ∧
      w3.tr.b = encFrame m0 ++ encFrame m1 ++ encFrame m2 ∧
      drainLoop (m0.length + m1.length + m2.length + 31) (2 * chunk + 2)
          (mkReader (encFrame m0 ++ encFrame m1 ++ encFrame m2) cbuf)
          chunk [] =
        some (m0 ++ m1 ++ m2, r2) := by
  obtain ⟨c2, hdrain⟩ := drain_inv cbuf hcb chunk (2 * chunk + 2) hch
    (le_refl _) (m0.length + m1.length + m2.length + 31)
    (mkReader (encs [m0, m1, m2]) cbuf) [] [m0, m1, m2] []
    (mkReader_inv (encs [m0, m1, m2]) cbuf) (by simp [mkReader])
    (by
      intro x hx
      simp only [List.mem_cons, List.not_mem_nil, or_false] at hx
      rcases hx with rfl | rfl | rfl <;> assumption)
    (by
      have l0 := lenBytes_le8 m0.length
      have l1 := lenBytes_le8 m1.length
      have l2 := lenBytes_le8 m2.length
      simp [encs, encFrame_len, List.length_append]
      omega)
  refine ⟨_, _, _, c2, write_appends mkWriter m0 rfl rfl h0,
    write_appends _ m1 rfl rfl h1, write_appends _ m2 rfl rfl h2,
    by simp [mkWriter], ?_⟩
  rw [show encFrame m0 ++ encFrame m1 ++ encFrame m2 = encs [m0, m1, m2]
    from by simp [encs]]
  simpa [cat, List.append_assoc] using hdrain

/-- C1 witness: the round-trip theorem at buffer size 32, chunk size 1
and messages `[1, 2]`, `[]`, `[3]`. -/
theorem c1_roundtrip_three_messages_witness :
    (32 ≤ 32 ∧ 32 ≤ 4096 ∧ 1 ≤ 1 ∧ 1 ≤ 4096 ∧
      ([1, 2] : List Nat).length ≤ maxLen64 ∧
      ([] : List Nat).length ≤ maxLen64 ∧
      ([3] : List Nat).length ≤ maxLen64) ∧
    (∃ w1 w2 w3 r2,
      mkWriter.Write' FakeTr [1, 2] [0, 0, 0, 0] =
        some ((([1, 2] : List Nat).length : Int), none, w1, [1, 2]) ∧
      w1.Write' FakeTr [] [0, 0, 0, 0] =
        some ((([] : List Nat).length : Int), none, w2, []) ∧
      w2.Write' FakeTr [3] [0, 0, 0, 0] =
        some ((([3] : List Nat).length : Int), none, w3, [3]) ∧
      w3.tr.b = encFrame [1, 2] ++ encFrame [] ++ encFrame [3] ∧
      drainLoop (([1, 2] : List Nat).length + ([] : List Nat).length +
          ([3] : List Nat).length + 31) (2 * 1 + 2)
          (mkReader (encFrame [1, 2] ++ encFrame [] ++ encFrame [3]) 32)
          1 [] =
        some ([1, 2] ++ [] ++ [3], r2)) :=
  ⟨⟨by decide, by decide, by decide, by decide, by norm_num [maxLen64],
      by norm_num [maxLen64], by norm_num [maxLen64]⟩,
    c1_roundtrip_three_messages 32 1 (by decide) (by decide) (by decide)
      (by decide) [1, 2] [] [3] (by norm_num [maxLen64])
      (by norm_num [maxLen64]) (by norm_num [maxLen64])⟩

end WS
